import Mathlib

/-!
# Verification of the message retrieval-and-grouping engine

Shallow embedding of the thread-grouping core of the
`slack-topic-document-generator` repository:

* `groupMessagesByThreads`, `getFilteredMessagesGrouped`
  (src/agent/messageRetriever.ts);
* the message store queries `getMessagesInTimeRange`, `getMessagesFromUsers`,
  `getMessagesWithMultipleUserMentions`, `getThreadMessages` and
  `validateDateRange` (src/packages/db/messageQueries.ts);
* `validateUserMention` (src/utils/validation.ts).

Modelling conventions:

* A message row (`SlackMessage & { id: number }`) keeps the fields the core
  reads; `created_at` is modelled as the epoch-millisecond value of the row's
  ISO timestamp (the source only ever compares `new Date(created_at).getTime()`
  values, and ISO-8601 strings compare consistently with their instants).
* `thread_id` is `Option String` (`none` for SQL NULL / undefined).  JS
  truthiness of `message.thread_id` (`undefined`, `null` and `""` are falsy)
  and strict equality `msg.thread_id === ts` are modelled explicitly.
* JS `Map` (insertion-ordered, set-replaces-in-place, set-appends-new-at-end)
  is modelled by association lists with `alGet` / `alSet`.
* JS `Array.prototype.sort` is stable; a stable sort by a total preorder has a
  uniquely determined result, so Mathlib's stable `List.insertionSort` by
  `created_at` is an exact model of `.sort((a, b) => ta - tb)`.
* JS `Date` values are `Option Nat`: `none` is an Invalid Date (`getTime()`
  NaN), `some t` a valid instant.
-/

namespace STDG

/-- A persisted chat-message row (`SlackMessage & { id: number }`).  The fields
`channel_name`, `permalink` and `mention_type` are carried verbatim by the
source and never read by the grouping/query core, so they are omitted. -/
structure Msg where
  id : Nat
  channel_id : String
  user_id : String
  user_name : String
  text : String
  ts : String
  thread_id : Option String
  created_at : Nat
deriving Repr, DecidableEq

/-- JS truthiness of the optional `thread_id` field (`if (message.thread_id)`):
`undefined`/`null` and the empty string are falsy. -/
def truthy : Option String → Bool
  | none => false
  | some t => t != ""

/-- JS strict equality `msg.thread_id === someTs` (`undefined === s` is
false). -/
def tidEq : Option String → String → Bool
  | none, _ => false
  | some t, s => t == s

/-- Ascending `created_at` comparison used by every `.sort((a, b) =>
new Date(a.created_at).getTime() - new Date(b.created_at).getTime())`. -/
def createdLE (a b : Msg) : Prop := a.created_at ≤ b.created_at

instance : DecidableRel createdLE := fun a b =>
  Nat.decLe a.created_at b.created_at

/-- Stable sort by `created_at`: the model of the source's
`[...].sort((a, b) => ta - tb)` (JS sort is stable). -/
def sortByCreatedAt (messages : List Msg) : List Msg :=
  messages.insertionSort createdLE

/-- JS-`Map` lookup (`map.get(key)`). -/
def alGet {α : Type} : List (String × α) → String → Option α
  | [], _ => none
  | (k, v) :: rest, key => if k == key then some v else alGet rest key

/-- JS-`Map` update (`map.set(key, v)`): replaces in place if the key exists,
appends a new entry at the end otherwise (insertion order preserved). -/
def alSet {α : Type} : List (String × α) → String → α → List (String × α)
  | [], key, v => [(key, v)]
  | (k, w) :: rest, key, v =>
    if k == key then (k, v) :: rest else (k, w) :: alSet rest key v

/-- JS-`Map` membership (`map.has(key)`). -/
def alHas {α : Type} (l : List (String × α)) (key : String) : Bool :=
  (alGet l key).isSome

/-- A reconstructed conversation unit (interface `MessageThread`). -/
structure MessageThread where
  parentMessage : Msg
  replies : List Msg
  threadId : String
  messageCount : Nat
deriving Repr, DecidableEq

/-- The grouping engine's output (interface `GroupedMessages`). -/
structure GroupedMessages where
  threads : List MessageThread
  standaloneMessages : List Msg
  totalMessageCount : Nat
deriving Repr, DecidableEq

/-- State built by the first pass of `groupMessagesByThreads`
(messageRetriever.ts, lines 186-218). -/
structure Pass1 where
  threadReplies : List (String × List Msg)
  parentMessages : List (String × Msg)
  standaloneMessages : List Msg
deriving Repr, DecidableEq

/-- `sortedMessages.some((msg) => msg.thread_id === message.ts)`: does some
message of the set reference `t` as its thread parent? -/
def referenced (all : List Msg) (t : String) : Bool :=
  all.any (fun msg => tidEq msg.thread_id t)

/-- Non-reply branch of the first-pass loop body: a message whose `thread_id`
is falsy is a parent if some message of the (whole sorted) set references its
`ts`, and a standalone message otherwise. -/
def classifyNonReply (all : List Msg) (st : Pass1) (message : Msg) : Pass1 :=
  if referenced all message.ts then
    { st with parentMessages := alSet st.parentMessages message.ts message }
  else
    { st with standaloneMessages := st.standaloneMessages ++ [message] }

/-- One iteration of the first-pass loop (lines 198-218): a message with a
truthy `thread_id` is appended to that thread's reply list, any other message
is classified by `classifyNonReply`. -/
def classifyStep (all : List Msg) (st : Pass1) (message : Msg) : Pass1 :=
  match message.thread_id with
  | some tid =>
    if tid = "" then
      classifyNonReply all st message
    else
      { st with
        threadReplies :=
          alSet st.threadReplies tid
            (((alGet st.threadReplies tid).getD []) ++ [message]) }
  | none => classifyNonReply all st message

/-- First pass of `groupMessagesByThreads` over the sorted message list. -/
def pass1 (sortedMessages : List Msg) : Pass1 :=
  sortedMessages.foldl (classifyStep sortedMessages) ⟨[], [], []⟩

/-- Second pass (lines 221-251): assemble one thread from a reply-list entry.
If a parent was recorded for the key, the thread is the parent plus its reply
list re-sorted by `created_at`; otherwise the chronologically first reply is
promoted to a synthetic parent (a copy with `thread_id` cleared) and
`messageCount` is the reply-list length.  Reply lists are created non-empty
and only grow, so the `[]` case is unreachable; it is mapped to `none` (the
source would crash there). -/
def buildThread (parentMessages : List (String × Msg)) (threadId : String)
    (replies : List Msg) : Option MessageThread :=
  match alGet parentMessages threadId with
  | some parentMessage =>
    some { parentMessage := parentMessage
           replies := sortByCreatedAt replies
           threadId := threadId
           messageCount := 1 + replies.length }
  | none =>
    match sortByCreatedAt replies with
    | [] => none
    | firstReply :: remainingReplies =>
      some { parentMessage := { firstReply with thread_id := none }
             replies := remainingReplies
             threadId := threadId
             messageCount := replies.length }

/-- The `threadsMap` built by the second pass, in insertion order. -/
def threadsMapOf (parentMessages : List (String × Msg))
    (threadReplies : List (String × List Msg)) :
    List (String × MessageThread) :=
  threadReplies.foldl
    (fun tm e =>
      match buildThread parentMessages e.1 e.2 with
      | some t => alSet tm e.1 t
      | none => tm)
    []

/-- `groupMessagesByThreads` (messageRetriever.ts, lines 183-269): sort the
input by `created_at`, classify every message (reply / parent / standalone),
assemble threads per reply-list key, append reply-less recorded parents to the
standalone list, and total the counts. -/
def groupMessagesByThreads (messages : List Msg) : GroupedMessages :=
  let sortedMessages := sortByCreatedAt messages
  let st := pass1 sortedMessages
  let threadsMap := threadsMapOf st.parentMessages st.threadReplies
  let standaloneMessages :=
    st.standaloneMessages ++
      (st.parentMessages.filter (fun e => !(alHas threadsMap e.1))).map Prod.snd
  let threads := threadsMap.map Prod.snd
  { threads := threads
    standaloneMessages := standaloneMessages
    totalMessageCount :=
      threads.foldl (fun sum t => sum + t.messageCount) 0 +
        standaloneMessages.length }

/-- Shorthand for building message rows in concrete examples. -/
def mkM (id : Nat) (ts : String) (tid : Option String) (t : Nat) : Msg :=
  ⟨id, "C1", "U1", "user", "text", ts, tid, t⟩

-- Sanity check: the spec's end-to-end scenario.  Messages P(ts=100),
-- R1(parent=100), R2(parent=100), S(ts=103) yield one thread (P, [R1, R2],
-- count 3), standalone [S], total 4.
example :
    groupMessagesByThreads
      [mkM 1 "100" none 100, mkM 2 "101" (some "100") 101,
       mkM 3 "102" (some "100") 102, mkM 4 "103" none 103] =
      { threads := [⟨mkM 1 "100" none 100,
                     [mkM 2 "101" (some "100") 101, mkM 3 "102" (some "100") 102],
                     "100", 3⟩]
        standaloneMessages := [mkM 4 "103" none 103]
        totalMessageCount := 4 } := by decide

-- Sanity check: the spec's orphan scenario.  X, Y, Z all reply to a missing
-- parent; X is promoted with its link cleared, count is 3.
example :
    groupMessagesByThreads
      [mkM 1 "200" (some "90") 200, mkM 2 "201" (some "90") 201,
       mkM 3 "202" (some "90") 202] =
      { threads := [⟨mkM 1 "200" none 200,
                     [mkM 2 "201" (some "90") 201, mkM 3 "202" (some "90") 202],
                     "90", 3⟩]
        standaloneMessages := []
        totalMessageCount := 3 } := by decide

/-! ## Association-list (JS `Map`) lemmas -/

/-- The key list of a JS `Map`, in insertion order. -/
def alKeys {α : Type} (l : List (String × α)) : List String :=
  l.map Prod.fst

theorem nodup_append_singleton {α : Type} {l : List α} {a : α}
    (h : l.Nodup) (ha : a ∉ l) : (l ++ [a]).Nodup := by
  induction l with
  | nil => simp
  | cons b rest ih =>
    simp only [List.mem_cons] at ha
    push_neg at ha
    simp only [List.cons_append, List.nodup_cons] at h ⊢
    refine ⟨?_, ih h.2 ha.2⟩
    simp only [List.mem_append, List.mem_singleton]
    rintro (hb | hb)
    · exact h.1 hb
    · exact ha.1 hb.symm

theorem alGet_alSet_self {α : Type} (l : List (String × α)) (k : String)
    (v : α) : alGet (alSet l k v) k = some v := by
  induction l with
  | nil => simp [alGet, alSet]
  | cons e rest ih =>
    obtain ⟨ek, ev⟩ := e
    by_cases h : ek = k <;> simp [alGet, alSet, h, ih]

theorem alGet_alSet_ne {α : Type} (l : List (String × α)) (k k' : String)
    (v : α) (h : k' ≠ k) : alGet (alSet l k v) k' = alGet l k' := by
  induction l with
  | nil => simp [alGet, alSet, Ne.symm h]
  | cons e rest ih =>
    obtain ⟨ek, ev⟩ := e
    by_cases h1 : ek = k
    · simp [alGet, alSet, h1, Ne.symm h]
    · by_cases h2 : ek = k' <;> simp [alGet, alSet, h1, h2, h, ih]

theorem alGet_eq_none_iff {α : Type} (l : List (String × α)) (k : String) :
    alGet l k = none ↔ k ∉ alKeys l := by
  induction l with
  | nil => simp [alGet, alKeys]
  | cons e rest ih =>
    obtain ⟨ek, ev⟩ := e
    by_cases h : ek = k
    · simp [alGet, alKeys, h]
    · simp [alGet, alKeys, h, Ne.symm h, ih]

theorem alGet_mem {α : Type} (l : List (String × α)) (k : String) (v : α)
    (h : alGet l k = some v) : (k, v) ∈ l := by
  induction l with
  | nil => simp [alGet] at h
  | cons e rest ih =>
    obtain ⟨ek, ev⟩ := e
    by_cases hk : ek = k
    · subst hk
      simp only [alGet, beq_self_eq_true, if_true, Option.some.injEq] at h
      subst h
      exact List.mem_cons_self _ _
    · simp only [alGet, beq_iff_eq, hk, if_false] at h
      exact List.mem_cons_of_mem _ (ih h)

theorem alGet_isSome_iff {α : Type} (l : List (String × α)) (k : String) :
    (alGet l k).isSome = true ↔ k ∈ alKeys l := by
  cases hn : alGet l k with
  | none =>
    exact iff_of_false (by simp) ((alGet_eq_none_iff l k).1 hn)
  | some v =>
    exact iff_of_true rfl (List.mem_map_of_mem Prod.fst (alGet_mem l k v hn))

theorem alKeys_alSet {α : Type} (l : List (String × α)) (k : String) (v : α) :
    alKeys (alSet l k v) =
      if k ∈ alKeys l then alKeys l else alKeys l ++ [k] := by
  induction l with
  | nil => simp [alSet, alKeys]
  | cons e rest ih =>
    obtain ⟨ek, ev⟩ := e
    simp only [alSet]
    by_cases h : ek = k
    · subst h
      simp [alKeys, List.mem_cons]
    · rw [if_neg (by simpa using h)]
      show ek :: alKeys (alSet rest k v) = _
      rw [ih]
      by_cases hk : k ∈ alKeys rest
      · rw [if_pos hk,
          if_pos (show k ∈ alKeys ((ek, ev) :: rest) from
            List.mem_cons_of_mem _ hk)]
        rfl
      · rw [if_neg hk, if_neg (show k ∉ alKeys ((ek, ev) :: rest) from ?_)]
        · rfl
        · intro hmem
          rcases List.mem_cons.1 hmem with h' | h'
          · exact h h'.symm
          · exact hk h'

theorem alSet_fresh {α : Type} (l : List (String × α)) (k : String) (v : α)
    (h : k ∉ alKeys l) : alSet l k v = l ++ [(k, v)] := by
  induction l with
  | nil => simp [alSet]
  | cons e rest ih =>
    obtain ⟨ek, ev⟩ := e
    simp only [alKeys, List.map_cons, List.mem_cons] at h
    push_neg at h
    simp only [alSet, beq_iff_eq, Ne.symm h.1, if_false, List.cons_append,
      List.cons.injEq, true_and]
    exact ih h.2

theorem alKeys_nodup_alSet {α : Type} (l : List (String × α)) (k : String)
    (v : α) (h : (alKeys l).Nodup) : (alKeys (alSet l k v)).Nodup := by
  rw [alKeys_alSet]
  by_cases hk : k ∈ alKeys l
  · simpa [hk]
  · simp only [hk, if_false]
    exact nodup_append_singleton h hk

/-! ## First-occurrence key lists (JS `Set` insertion order) -/

/-- Add a key to an insertion-ordered duplicate-free list (`set.add(k)`). -/
def setAdd (ks : List String) (k : String) : List String :=
  if k ∈ ks then ks else ks ++ [k]

/-- Accumulate the first occurrences of `l`'s elements after `acc`. -/
def firstOccsFrom (acc : List String) (l : List String) : List String :=
  l.foldl setAdd acc

/-- The distinct elements of `l`, in order of first occurrence. -/
def firstOccs (l : List String) : List String :=
  firstOccsFrom [] l

theorem firstOccsFrom_cons (acc : List String) (k : String) (l : List String) :
    firstOccsFrom acc (k :: l) = firstOccsFrom (setAdd acc k) l := rfl

theorem mem_firstOccsFrom (acc : List String) (l : List String) (a : String) :
    a ∈ firstOccsFrom acc l ↔ a ∈ acc ∨ a ∈ l := by
  induction l generalizing acc with
  | nil => simp [firstOccsFrom]
  | cons k rest ih =>
    rw [firstOccsFrom_cons, ih]
    unfold setAdd
    by_cases hk : k ∈ acc
    · simp only [hk, if_true, List.mem_cons]
      constructor
      · rintro (h | h)
        · exact Or.inl h
        · exact Or.inr (Or.inr h)
      · rintro (h | rfl | h)
        · exact Or.inl h
        · exact Or.inl hk
        · exact Or.inr h
    · simp only [hk, if_false, List.mem_append, List.mem_singleton, List.mem_cons]
      tauto

theorem nodup_firstOccsFrom (acc : List String) (l : List String)
    (h : acc.Nodup) : (firstOccsFrom acc l).Nodup := by
  induction l generalizing acc with
  | nil => exact h
  | cons k rest ih =>
    rw [firstOccsFrom_cons]
    refine ih _ ?_
    unfold setAdd
    by_cases hk : k ∈ acc
    · simpa [hk]
    · simp only [hk, if_false]
      exact nodup_append_singleton h hk

theorem nodup_firstOccs (l : List String) : (firstOccs l).Nodup :=
  nodup_firstOccsFrom [] l List.nodup_nil

theorem mem_firstOccs (l : List String) (a : String) :
    a ∈ firstOccs l ↔ a ∈ l := by
  simpa using mem_firstOccsFrom [] l a

/-! ## First-pass characterization -/

/-- The reply key the first pass files `m` under: `some k` iff
`m.thread_id` is truthy with contents `k`. -/
def tkey (m : Msg) : Option String :=
  match m.thread_id with
  | some t => if t = "" then none else some t
  | none => none

theorem tkey_eq_some_iff (m : Msg) (k : String) :
    tkey m = some k ↔ m.thread_id = some k ∧ k ≠ "" := by
  unfold tkey
  cases h : m.thread_id with
  | none => simp
  | some t =>
    show (if t = "" then none else some t) = some k ↔
      some t = some k ∧ k ≠ ""
    by_cases ht : t = ""
    · subst ht
      rw [if_pos rfl]
      constructor
      · intro hc
        exact Option.noConfusion hc
      · rintro ⟨hc, hk⟩
        exact absurd (Option.some.inj hc).symm hk
    · rw [if_neg ht]
      simp only [Option.some.injEq]
      constructor
      · rintro rfl
        exact ⟨rfl, ht⟩
      · rintro ⟨rfl, _⟩
        rfl

theorem tkey_eq_none_iff (m : Msg) : tkey m = none ↔ truthy m.thread_id = false := by
  unfold tkey truthy
  cases m.thread_id with
  | none => simp
  | some t => by_cases ht : t = "" <;> simp [ht]

/-- First-pass classification predicate: standalone message. -/
def isStandaloneMsg (all : List Msg) (m : Msg) : Bool :=
  (tkey m).isNone && !(referenced all m.ts)

/-- First-pass classification predicate: recorded parent. -/
def isParentMsg (all : List Msg) (m : Msg) : Bool :=
  (tkey m).isNone && referenced all m.ts

theorem classifyStep_eq (all : List Msg) (st : Pass1) (m : Msg) :
    classifyStep all st m =
      match tkey m with
      | some tid =>
        { st with
          threadReplies :=
            alSet st.threadReplies tid
              (((alGet st.threadReplies tid).getD []) ++ [m]) }
      | none => classifyNonReply all st m := by
  unfold classifyStep tkey
  cases m.thread_id with
  | none => rfl
  | some t => by_cases ht : t = "" <;> simp [ht]

theorem classifyStep_standalone (all : List Msg) (st : Pass1) (m : Msg) :
    (classifyStep all st m).standaloneMessages =
      st.standaloneMessages ++ (if isStandaloneMsg all m then [m] else []) := by
  rw [classifyStep_eq]
  unfold isStandaloneMsg classifyNonReply
  cases htk : tkey m with
  | some tid => simp
  | none =>
    by_cases hr : referenced all m.ts <;> simp [hr]

theorem classifyStep_parents (all : List Msg) (st : Pass1) (m : Msg) :
    (classifyStep all st m).parentMessages =
      if isParentMsg all m then alSet st.parentMessages m.ts m
      else st.parentMessages := by
  rw [classifyStep_eq]
  unfold isParentMsg classifyNonReply
  cases htk : tkey m with
  | some tid => simp
  | none =>
    by_cases hr : referenced all m.ts <;> simp [hr]

theorem classifyStep_TR (all : List Msg) (st : Pass1) (m : Msg) :
    (classifyStep all st m).threadReplies =
      match tkey m with
      | some tid =>
        alSet st.threadReplies tid
          (((alGet st.threadReplies tid).getD []) ++ [m])
      | none => st.threadReplies := by
  rw [classifyStep_eq]
  unfold classifyNonReply
  cases htk : tkey m with
  | some tid => simp
  | none =>
    by_cases hr : referenced all m.ts <;> simp [hr]

theorem pass1_standalone_aux (all : List Msg) (l : List Msg) (st : Pass1) :
    (l.foldl (classifyStep all) st).standaloneMessages =
      st.standaloneMessages ++ l.filter (isStandaloneMsg all) := by
  induction l generalizing st with
  | nil => simp
  | cons m rest ih =>
    rw [List.foldl_cons, ih, classifyStep_standalone, List.filter_cons]
    by_cases h : isStandaloneMsg all m <;> simp [h]

/-- Any element of `alSet l k v` is an element of `l` or is the new entry. -/
theorem alSet_mem {α : Type} (l : List (String × α)) (k : String) (v : α)
    (e : String × α) (he : e ∈ alSet l k v) : e ∈ l ∨ e = (k, v) := by
  induction l with
  | nil => simpa [alSet] using he
  | cons p rest ih =>
    obtain ⟨pk, pv⟩ := p
    by_cases h : pk = k
    · simp only [alSet, beq_iff_eq, h, if_true] at he
      rcases List.mem_cons.1 he with h' | h'
      · right; exact h'
      · left; exact List.mem_cons_of_mem _ h'
    · simp only [alSet, beq_iff_eq, h, if_false] at he
      rcases List.mem_cons.1 he with h' | h'
      · left; rw [h']; exact List.mem_cons_self _ _
      · rcases ih h' with h'' | h''
        · left; exact List.mem_cons_of_mem _ h''
        · right; exact h''

theorem pass1_parents_mem (all : List Msg) (l : List Msg) (st : Pass1) :
    ∀ e ∈ (l.foldl (classifyStep all) st).parentMessages,
      e ∈ st.parentMessages ∨
        (e.2 ∈ l ∧ e.1 = e.2.ts ∧ isParentMsg all e.2 = true) := by
  induction l generalizing st with
  | nil => intro e he; exact Or.inl he
  | cons m rest ih =>
    intro e he
    rw [List.foldl_cons] at he
    rcases ih _ e he with h | h
    · rw [classifyStep_parents] at h
      by_cases hp : isParentMsg all m
      · rw [if_pos hp] at h
        rcases alSet_mem _ _ _ _ h with h' | h'
        · exact Or.inl h'
        · refine Or.inr ?_
          rw [h']
          exact ⟨List.mem_cons_self _ _, rfl, hp⟩
      · rw [if_neg hp] at h
        exact Or.inl h
    · exact Or.inr ⟨List.mem_cons_of_mem _ h.1, h.2.1, h.2.2⟩

theorem pass1_parents_aux (all : List Msg) (l : List Msg) (st : Pass1)
    (hnd : ((l.filter (isParentMsg all)).map Msg.ts).Nodup)
    (hfresh : ∀ m ∈ l, isParentMsg all m = true →
      m.ts ∉ alKeys st.parentMessages) :
    (l.foldl (classifyStep all) st).parentMessages =
      st.parentMessages ++
        (l.filter (isParentMsg all)).map (fun m => (m.ts, m)) := by
  induction l generalizing st with
  | nil => simp
  | cons m rest ih =>
    rw [List.foldl_cons]
    rw [List.filter_cons] at hnd ⊢
    by_cases hp : isParentMsg all m
    · rw [if_pos hp] at hnd ⊢
      rw [List.map_cons, List.nodup_cons] at hnd
      have hstep : (classifyStep all st m).parentMessages =
          st.parentMessages ++ [(m.ts, m)] := by
        rw [classifyStep_parents, if_pos hp,
          alSet_fresh _ _ _ (hfresh m (List.mem_cons_self _ _) hp)]
      rw [ih]
      · rw [hstep, List.append_assoc]
        rfl
      · exact hnd.2
      · intro m' hm' hp'
        rw [hstep]
        unfold alKeys
        rw [List.map_append, List.mem_append]
        rintro (h' | h')
        · exact hfresh m' (List.mem_cons_of_mem _ hm') hp' h'
        · simp only [List.map_cons, List.map_nil, List.mem_singleton] at h'
          exact hnd.1 (h' ▸ List.mem_map_of_mem Msg.ts (List.mem_filter.2 ⟨hm', hp'⟩))
    · rw [if_neg hp] at hnd ⊢
      have hstep : (classifyStep all st m).parentMessages =
          st.parentMessages := by
        rw [classifyStep_parents, if_neg hp]
      rw [ih]
      · rw [hstep]
      · exact hnd
      · intro m' hm' hp'
        rw [hstep]
        exact hfresh m' (List.mem_cons_of_mem _ hm') hp'

/-- How the first pass extends an existing reply list for key `k`. -/
def combineTR : Option (List Msg) → List Msg → Option (List Msg)
  | none, fs => if fs.isEmpty then none else some fs
  | some v, fs => some (v ++ fs)

theorem pass1_TR_get_aux (all : List Msg) (l : List Msg) (st : Pass1)
    (k : String) :
    alGet (l.foldl (classifyStep all) st).threadReplies k =
      combineTR (alGet st.threadReplies k)
        (l.filter (fun m => decide (tkey m = some k))) := by
  induction l generalizing st with
  | nil =>
    cases h : alGet st.threadReplies k <;> simp [combineTR, h]
  | cons m rest ih =>
    rw [List.foldl_cons, ih, List.filter_cons]
    cases htk : tkey m with
    | none =>
      simp only [classifyStep_TR, htk]
      rw [if_neg (by simp)]
    | some tid =>
      by_cases hk : tid = k
      · subst hk
        simp only [classifyStep_TR, htk]
        rw [alGet_alSet_self, if_pos (by simp)]
        cases h : alGet st.threadReplies tid with
        | none => simp [combineTR, h]
        | some v => simp [combineTR, h]
      · simp only [classifyStep_TR, htk]
        rw [alGet_alSet_ne _ _ _ _ (Ne.symm hk), if_neg (by simp [hk])]

theorem pass1_TR_keys_aux (all : List Msg) (l : List Msg) (st : Pass1) :
    alKeys (l.foldl (classifyStep all) st).threadReplies =
      firstOccsFrom (alKeys st.threadReplies) (l.filterMap tkey) := by
  induction l generalizing st with
  | nil => rfl
  | cons m rest ih =>
    rw [List.foldl_cons, ih, List.filterMap_cons]
    cases htk : tkey m with
    | none => rw [classifyStep_TR, htk]
    | some tid =>
      rw [classifyStep_TR, htk, firstOccsFrom_cons]
      congr 1
      rw [alKeys_alSet]
      rfl

/-! ## Sorting facts -/

instance : IsTotal Msg createdLE :=
  ⟨fun a b => Nat.le_total a.created_at b.created_at⟩

instance : IsTrans Msg createdLE :=
  ⟨fun _ _ _ hab hbc => Nat.le_trans hab hbc⟩

theorem sortByCreatedAt_perm (l : List Msg) :
    List.Perm (sortByCreatedAt l) l :=
  List.perm_insertionSort createdLE l

theorem sortByCreatedAt_sorted (l : List Msg) :
    (sortByCreatedAt l).Sorted createdLE :=
  List.sorted_insertionSort createdLE l

theorem sortByCreatedAt_length (l : List Msg) :
    (sortByCreatedAt l).length = l.length :=
  (sortByCreatedAt_perm l).length_eq

theorem sortByCreatedAt_nil_iff (l : List Msg) :
    sortByCreatedAt l = [] ↔ l = [] := by
  constructor
  · intro h
    have hp := sortByCreatedAt_perm l
    rw [h] at hp
    exact hp.symm.eq_nil
  · rintro rfl
    rfl

theorem sortByCreatedAt_mem (l : List Msg) (m : Msg) :
    m ∈ sortByCreatedAt l ↔ m ∈ l :=
  (sortByCreatedAt_perm l).mem_iff

/-! ## Second-pass characterization -/

theorem alGet_of_mem_nodup {α : Type} (l : List (String × α)) (k : String)
    (v : α) (hnd : (alKeys l).Nodup) (h : (k, v) ∈ l) :
    alGet l k = some v := by
  induction l with
  | nil => cases h
  | cons p rest ih =>
    obtain ⟨pk, pv⟩ := p
    rw [alKeys, List.map_cons, List.nodup_cons] at hnd
    rcases List.mem_cons.1 h with h' | h'
    · injection h' with h1 h2
      subst h1
      subst h2
      simp [alGet]
    · have hk : pk ≠ k := by
        rintro rfl
        exact hnd.1 (List.mem_map.2 ⟨(pk, v), h', rfl⟩)
      simp only [alGet, beq_iff_eq, hk, if_false]
      exact ih hnd.2 h'

theorem threadsMapOf_from (parents : List (String × Msg))
    (TR : List (String × List Msg)) (acc : List (String × MessageThread))
    (hnd : (alKeys TR).Nodup)
    (hfresh : ∀ k ∈ alKeys TR, k ∉ alKeys acc) :
    TR.foldl (fun tm e =>
        match buildThread parents e.1 e.2 with
        | some t => alSet tm e.1 t
        | none => tm) acc =
      acc ++ TR.filterMap
        (fun e => (buildThread parents e.1 e.2).map (fun t => (e.1, t))) := by
  induction TR generalizing acc with
  | nil => simp
  | cons e rest ih =>
    rw [alKeys, List.map_cons, List.nodup_cons] at hnd
    rw [List.foldl_cons, List.filterMap_cons]
    cases hb : buildThread parents e.1 e.2 with
    | none =>
      simp only [Option.map_none', hb]
      exact ih _ hnd.2 fun k hk =>
        hfresh k (List.mem_cons_of_mem _ hk)
    | some t =>
      simp only [Option.map_some', hb]
      have hfr : e.1 ∉ alKeys acc :=
        hfresh e.1 (List.mem_cons_self _ _)
      rw [alSet_fresh _ _ _ hfr,
        ih _ hnd.2 ?_, List.append_assoc]
      · rfl
      · intro k hk
        unfold alKeys
        rw [List.map_append, List.mem_append]
        rintro (h' | h')
        · exact hfresh k (List.mem_cons_of_mem _ hk) h'
        · simp only [List.map_cons, List.map_nil, List.mem_singleton] at h'
          subst h'
          exact hnd.1 hk

theorem threadsMapOf_eq (parents : List (String × Msg))
    (TR : List (String × List Msg)) (hnd : (alKeys TR).Nodup) :
    threadsMapOf parents TR =
      TR.filterMap
        (fun e => (buildThread parents e.1 e.2).map (fun t => (e.1, t))) := by
  unfold threadsMapOf
  rw [threadsMapOf_from parents TR [] hnd (by intro k _; simp [alKeys])]
  rfl

theorem map_snd_filterMap_pair {β : Type} (l : List β)
    (f : β → Option MessageThread) (key : β → String) :
    (l.filterMap (fun e => (f e).map (fun t => (key e, t)))).map Prod.snd =
      l.filterMap f := by
  induction l with
  | nil => rfl
  | cons e rest ih =>
    rw [List.filterMap_cons, List.filterMap_cons]
    cases h : f e <;> simp [h, ih]

/-! ## Characterization of `groupMessagesByThreads` components -/

/-- The first pass run by `groupMessagesByThreads ms`. -/
def p1 (ms : List Msg) : Pass1 :=
  pass1 (sortByCreatedAt ms)

/-- The threads map built by `groupMessagesByThreads ms`. -/
def tmOf (ms : List Msg) : List (String × MessageThread) :=
  threadsMapOf (p1 ms).parentMessages (p1 ms).threadReplies

/-- The final standalone list of `groupMessagesByThreads ms`. -/
def standOf (ms : List Msg) : List Msg :=
  (p1 ms).standaloneMessages ++
    ((p1 ms).parentMessages.filter (fun e => !(alHas (tmOf ms) e.1))).map
      Prod.snd

theorem groupMessagesByThreads_eq (ms : List Msg) :
    groupMessagesByThreads ms =
      { threads := (tmOf ms).map Prod.snd
        standaloneMessages := standOf ms
        totalMessageCount :=
          ((tmOf ms).map Prod.snd).foldl (fun sum t => sum + t.messageCount) 0 +
            (standOf ms).length } := rfl

theorem pass1_TR_keys (s : List Msg) :
    alKeys (pass1 s).threadReplies = firstOccs (s.filterMap tkey) :=
  pass1_TR_keys_aux s s ⟨[], [], []⟩

theorem pass1_TR_keys_nodup (s : List Msg) :
    (alKeys (pass1 s).threadReplies).Nodup := by
  rw [pass1_TR_keys]
  exact nodup_firstOccs _

theorem pass1_TR_get (s : List Msg) (k : String) :
    alGet (pass1 s).threadReplies k =
      if (s.filter (fun m => decide (tkey m = some k))).isEmpty then none
      else some (s.filter (fun m => decide (tkey m = some k))) :=
  pass1_TR_get_aux s s ⟨[], [], []⟩ k

theorem pass1_TR_mem (s : List Msg) (e : String × List Msg)
    (he : e ∈ (pass1 s).threadReplies) :
    e.2 = s.filter (fun m => decide (tkey m = some e.1)) ∧ e.2 ≠ [] := by
  have hget : alGet (pass1 s).threadReplies e.1 = some e.2 :=
    alGet_of_mem_nodup _ _ _ (pass1_TR_keys_nodup s) he
  rw [pass1_TR_get] at hget
  by_cases hemp : (s.filter (fun m => decide (tkey m = some e.1))).isEmpty
  · rw [if_pos hemp] at hget
    exact Option.noConfusion hget
  · rw [if_neg hemp] at hget
    have heq := Option.some.inj hget
    refine ⟨heq.symm, ?_⟩
    intro hnil
    rw [hnil] at heq
    rw [heq] at hemp
    exact hemp rfl

theorem pass1_standalone (s : List Msg) :
    (pass1 s).standaloneMessages = s.filter (isStandaloneMsg s) :=
  pass1_standalone_aux s s ⟨[], [], []⟩

theorem grouped_threads (ms : List Msg) :
    (groupMessagesByThreads ms).threads =
      ((p1 ms).threadReplies).filterMap
        (fun e => buildThread (p1 ms).parentMessages e.1 e.2) := by
  rw [groupMessagesByThreads_eq]
  show (tmOf ms).map Prod.snd = _
  unfold tmOf p1
  rw [threadsMapOf_eq _ _ (pass1_TR_keys_nodup _)]
  exact map_snd_filterMap_pair _ _ _

theorem grouped_standalone (ms : List Msg) :
    (groupMessagesByThreads ms).standaloneMessages =
      (sortByCreatedAt ms).filter (isStandaloneMsg (sortByCreatedAt ms)) ++
        ((p1 ms).parentMessages.filter
          (fun e => !(alHas (tmOf ms) e.1))).map Prod.snd := by
  rw [groupMessagesByThreads_eq]
  show standOf ms = _
  unfold standOf
  congr 1
  show (p1 ms).standaloneMessages = _
  unfold p1
  exact pass1_standalone _

theorem foldl_add_messageCount (l : List MessageThread) (n : Nat) :
    l.foldl (fun sum t => sum + t.messageCount) n =
      n + (l.map MessageThread.messageCount).sum := by
  induction l generalizing n with
  | nil => simp
  | cons t rest ih => simp [ih, Nat.add_assoc]

theorem grouped_total (ms : List Msg) :
    (groupMessagesByThreads ms).totalMessageCount =
      ((groupMessagesByThreads ms).threads.map MessageThread.messageCount).sum
        + (groupMessagesByThreads ms).standaloneMessages.length := by
  conv_lhs => rw [groupMessagesByThreads_eq]
  show ((tmOf ms).map Prod.snd).foldl (fun sum t => sum + t.messageCount) 0 +
      (standOf ms).length = _
  rw [foldl_add_messageCount, Nat.zero_add]
  rw [groupMessagesByThreads_eq]

theorem buildThread_some (P : List (String × Msg)) (k : String)
    (rs : List Msg) (hne : rs ≠ []) :
    ∃ t, buildThread P k rs = some t ∧
      t.threadId = k ∧
      t.messageCount = 1 + t.replies.length ∧
      t.messageCount = (if k ∈ alKeys P then 1 + rs.length else rs.length) ∧
      t.replies.Sorted createdLE := by
  unfold buildThread
  cases hp : alGet P k with
  | some p =>
    refine ⟨_, rfl, rfl, ?_, ?_, ?_⟩
    · simp [sortByCreatedAt_length]
    · rw [if_pos ((alGet_isSome_iff P k).1 (by rw [hp]; rfl))]
    · exact sortByCreatedAt_sorted rs
  | none =>
    have hsn : sortByCreatedAt rs ≠ [] := fun h =>
      hne ((sortByCreatedAt_nil_iff rs).1 h)
    cases hs : sortByCreatedAt rs with
    | nil => exact absurd hs hsn
    | cons f rest =>
      refine ⟨_, rfl, rfl, ?_, ?_, ?_⟩
      · show rs.length = 1 + rest.length
        have : (sortByCreatedAt rs).length = rs.length :=
          sortByCreatedAt_length rs
        rw [hs] at this
        simp only [List.length_cons] at this
        omega
      · rw [if_neg (fun hmem => ((alGet_eq_none_iff P k).1 hp) hmem)]
      · have := sortByCreatedAt_sorted rs
        rw [hs] at this
        exact this.of_cons

theorem alKeys_filterMap_buildThread (P : List (String × Msg))
    (TR : List (String × List Msg)) (hne : ∀ e ∈ TR, e.2 ≠ []) :
    alKeys (TR.filterMap
        (fun e => (buildThread P e.1 e.2).map (fun t => (e.1, t)))) =
      alKeys TR := by
  induction TR with
  | nil => rfl
  | cons e rest ih =>
    rw [List.filterMap_cons]
    obtain ⟨t, hb, -, -, -, -⟩ :=
      buildThread_some P e.1 e.2 (hne e (List.mem_cons_self _ _))
    rw [hb]
    simp only [Option.map_some']
    show (e.1 :: alKeys (rest.filterMap _) : List String) = _
    rw [ih fun x hx => hne x (List.mem_cons_of_mem _ hx)]
    rfl

theorem pass1_TR_mem' (ms : List Msg) (e : String × List Msg)
    (he : e ∈ (p1 ms).threadReplies) :
    e.2 = (sortByCreatedAt ms).filter
        (fun m => decide (tkey m = some e.1)) ∧ e.2 ≠ [] := by
  unfold p1 at he
  exact pass1_TR_mem _ e he

theorem alKeys_tmOf (ms : List Msg) :
    alKeys (tmOf ms) = alKeys (p1 ms).threadReplies := by
  unfold tmOf p1
  rw [threadsMapOf_eq _ _ (pass1_TR_keys_nodup _)]
  exact alKeys_filterMap_buildThread _ _
    (fun e he => (pass1_TR_mem _ e he).2)

/-! ## Uniqueness of the sorted order when `created_at` values are distinct -/

theorem sorted_nodup_created_eq (l1 : List Msg) :
    ∀ l2 : List Msg, List.Perm l1 l2 →
      l1.Sorted createdLE → l2.Sorted createdLE →
      l1.Pairwise (fun a b => a.created_at ≠ b.created_at) →
      l1 = l2 := by
  induction l1 with
  | nil =>
    intro l2 hp _ _ _
    exact (hp.symm.eq_nil).symm
  | cons a t1 ih =>
    intro l2 hp hs1 hs2 hnd
    cases l2 with
    | nil => exact absurd hp.eq_nil (by simp)
    | cons b t2 =>
      have hab : a = b := by
        by_contra hab
        have hb1 : b ∈ a :: t1 := hp.mem_iff.2 (List.mem_cons_self _ _)
        have ha2 : a ∈ b :: t2 := hp.mem_iff.1 (List.mem_cons_self _ _)
        have hbt1 : b ∈ t1 := by
          rcases List.mem_cons.1 hb1 with h | h
          · exact absurd h.symm hab
          · exact h
        have hat2 : a ∈ t2 := by
          rcases List.mem_cons.1 ha2 with h | h
          · exact absurd h hab
          · exact h
        have h1 : a.created_at ≤ b.created_at :=
          ((List.sorted_cons.1 hs1).1 b hbt1 :)
        have h2 : b.created_at ≤ a.created_at :=
          ((List.sorted_cons.1 hs2).1 a hat2 :)
        exact (List.pairwise_cons.1 hnd).1 b hbt1 (Nat.le_antisymm h1 h2)
      subst hab
      rw [ih t2 hp.cons_inv hs1.of_cons hs2.of_cons
        (List.pairwise_cons.1 hnd).2]

/-! ## Further helpers for the claims -/

theorem referenced_iff (all : List Msg) (t : String) :
    referenced all t = true ↔ ∃ x ∈ all, x.thread_id = some t := by
  unfold referenced
  rw [List.any_eq_true]
  constructor
  · rintro ⟨x, hx, htid⟩
    refine ⟨x, hx, ?_⟩
    cases hx2 : x.thread_id with
    | none =>
      rw [hx2] at htid
      simp [tidEq] at htid
    | some u =>
      rw [hx2] at htid
      simp only [tidEq] at htid
      rw [beq_iff_eq.1 htid]
  · rintro ⟨x, hx, htid⟩
    exact ⟨x, hx, by rw [htid]; simp [tidEq]⟩

theorem grouped_threads_mem (ms : List Msg) (t : MessageThread)
    (ht : t ∈ (groupMessagesByThreads ms).threads) :
    ∃ e ∈ (p1 ms).threadReplies,
      buildThread (p1 ms).parentMessages e.1 e.2 = some t := by
  rw [grouped_threads] at ht
  exact List.mem_filterMap.1 ht

theorem buildThread_cases (P : List (String × Msg)) (k : String)
    (rs : List Msg) (t : MessageThread)
    (h : buildThread P k rs = some t) :
    (∃ p, alGet P k = some p ∧ t.parentMessage = p ∧
      t.replies = sortByCreatedAt rs) ∨
    (alGet P k = none ∧ ∃ f rest, sortByCreatedAt rs = f :: rest ∧
      t.parentMessage = { f with thread_id := none } ∧ t.replies = rest) := by
  unfold buildThread at h
  cases hp : alGet P k with
  | some p =>
    rw [hp] at h
    have ht := Option.some.inj h
    exact Or.inl ⟨p, rfl, by rw [← ht], by rw [← ht]⟩
  | none =>
    rw [hp] at h
    cases hs : sortByCreatedAt rs with
    | nil =>
      rw [hs] at h
      exact Option.noConfusion h
    | cons f rest =>
      rw [hs] at h
      have ht := Option.some.inj h
      exact Or.inr ⟨rfl, f, rest, rfl, by rw [← ht], by rw [← ht]⟩

theorem nodup_id_inj (ms : List Msg) (h : (ms.map Msg.id).Nodup)
    (a b : Msg) (ha : a ∈ ms) (hb : b ∈ ms) (hid : a.id = b.id) : a = b := by
  induction ms with
  | nil => cases ha
  | cons x rest ih =>
    rw [List.map_cons, List.nodup_cons] at h
    rcases List.mem_cons.1 ha with rfl | ha' <;>
      rcases List.mem_cons.1 hb with h2 | hb'
    · rw [h2]
    · rw [hid] at h
      exact absurd (List.mem_map.2 ⟨b, hb', rfl⟩) h.1
    · rw [← h2] at h
      rw [← hid] at h
      exact absurd (List.mem_map.2 ⟨a, ha', rfl⟩) h.1
    · exact ih h.2 ha' hb'

/-- Any parent recorded by the first pass is referenced by some message. -/
theorem parents_referenced (ms : List Msg) (e : String × Msg)
    (he : e ∈ (p1 ms).parentMessages) :
    e.2 ∈ sortByCreatedAt ms ∧ e.1 = e.2.ts ∧
      ∃ x ∈ sortByCreatedAt ms, x.thread_id = some e.2.ts := by
  unfold p1 at he
  rcases pass1_parents_mem _ _ _ e he with h | h
  · exact absurd h (List.not_mem_nil e)
  · refine ⟨h.1, h.2.1, ?_⟩
    have hpar := h.2.2
    unfold isParentMsg at hpar
    rw [Bool.and_eq_true] at hpar
    exact (referenced_iff _ _).1 hpar.2

/-- Under the no-empty-thread-link hypothesis, every recorded parent key is a
reply-list key, so the leftover-parents loop contributes nothing. -/
theorem parent_key_in_TR (ms : List Msg)
    (hclean : ∀ m ∈ ms, m.thread_id ≠ some "")
    (e : String × Msg) (he : e ∈ (p1 ms).parentMessages) :
    e.1 ∈ alKeys (p1 ms).threadReplies := by
  obtain ⟨-, hts, x, hx, hxt⟩ := parents_referenced ms e he
  have hx' : x ∈ ms := (sortByCreatedAt_mem ms x).1 hx
  have hne : e.2.ts ≠ "" := by
    intro hemp
    exact hclean x hx' (by rw [hxt, hemp])
  have htk : tkey x = some e.2.ts := (tkey_eq_some_iff x _).2 ⟨hxt, hne⟩
  unfold p1
  rw [pass1_TR_keys, mem_firstOccs, hts]
  exact List.mem_filterMap.2 ⟨x, hx, htk⟩

/-- C5: a message with no `threadParentTimestamp` whose `ts` no message of the
set references appears among the standalone messages and in no thread, given
that message ids are pairwise distinct. -/
theorem C5_parent_without_replies_standalone (ms : List Msg) (m : Msg)
    (hids : (ms.map Msg.id).Nodup)
    (hm : m ∈ ms) (htid : m.thread_id = none)
    (hunref : ∀ x ∈ ms, x.thread_id ≠ some m.ts) :
    m ∈ (groupMessagesByThreads ms).standaloneMessages ∧
      ∀ t ∈ (groupMessagesByThreads ms).threads,
        t.parentMessage ≠ m ∧ m ∉ t.replies := by
  constructor
  · rw [grouped_standalone]
    refine List.mem_append_left _ (List.mem_filter.2 ⟨?_, ?_⟩)
    · exact (sortByCreatedAt_mem ms m).2 hm
    · unfold isStandaloneMsg
      rw [Bool.and_eq_true]
      constructor
      · simp [tkey, htid]
      · rw [Bool.not_eq_true']
        rw [Bool.eq_false_iff]
        intro href
        obtain ⟨x, hx, hxt⟩ := (referenced_iff _ _).1 href
        exact hunref x ((sortByCreatedAt_mem ms x).1 hx) hxt
  · intro t ht
    obtain ⟨e, he, hb⟩ := grouped_threads_mem ms t ht
    obtain ⟨hval, -⟩ := pass1_TR_mem' ms e he
    have hreplies : ∀ x ∈ t.replies, tkey x = some e.1 := by
      intro x hxrep
      rcases buildThread_cases _ _ _ _ hb with ⟨p, -, -, hrep⟩ |
        ⟨-, f, rest, hsort, -, hrep⟩
      · rw [hrep] at hxrep
        rw [(sortByCreatedAt_mem _ x)] at hxrep
        rw [hval] at hxrep
        simpa using (List.mem_filter.1 hxrep).2
      · rw [hrep] at hxrep
        have : x ∈ sortByCreatedAt e.2 := by
          rw [hsort]
          exact List.mem_cons_of_mem _ hxrep
        rw [(sortByCreatedAt_mem _ x)] at this
        rw [hval] at this
        simpa using (List.mem_filter.1 this).2
    constructor
    · intro hpm
      rcases buildThread_cases _ _ _ _ hb with ⟨p, hget, hpar, -⟩ |
        ⟨-, f, rest, hsort, hpar, -⟩
      · -- the recorded parent p is referenced, but m is unreferenced
        have hpmem : (e.1, p) ∈ (p1 ms).parentMessages :=
          alGet_mem _ _ _ hget
        obtain ⟨-, -, x, hx, hxt⟩ := parents_referenced ms (e.1, p) hpmem
        rw [hpar] at hpm
        rw [hpm] at hxt
        exact hunref x ((sortByCreatedAt_mem ms x).1 hx) hxt
      · -- the synthetic parent is a copy of a reply f; ids force f = m,
        -- but f carries a thread link and m does not
        have hf : f ∈ sortByCreatedAt e.2 := by
          rw [hsort]; exact List.mem_cons_self _ _
        rw [(sortByCreatedAt_mem _ f), hval] at hf
        have hfk : tkey f = some e.1 := by
          simpa using (List.mem_filter.1 hf).2
        have hfms : f ∈ ms := by
          have := (List.mem_filter.1 hf).1
          exact (sortByCreatedAt_mem ms f).1 this
        rw [hpar] at hpm
        have hfid : f.id = m.id := by rw [← hpm]
        have hfm : f = m := nodup_id_inj ms hids f m hfms hm hfid
        rw [tkey_eq_some_iff] at hfk
        rw [hfm, htid] at hfk
        exact Option.noConfusion hfk.1
    · intro hxrep
      have := hreplies m hxrep
      rw [tkey_eq_some_iff, htid] at this
      exact Option.noConfusion this.1

/-- C5 witness at a concrete input. -/
theorem C5_witness :
    mkM 1 "100" none 100 ∈
      (groupMessagesByThreads [mkM 1 "100" none 100, mkM 2 "200" none 200,
        mkM 3 "201" (some "200") 201]).standaloneMessages ∧
    ∀ t ∈ (groupMessagesByThreads [mkM 1 "100" none 100,
        mkM 2 "200" none 200, mkM 3 "201" (some "200") 201]).threads,
      t.parentMessage ≠ mkM 1 "100" none 100 ∧
        mkM 1 "100" none 100 ∉ t.replies :=
  C5_parent_without_replies_standalone _ _ (by decide) (by decide) (by decide)
    (by decide)

/-- C6 (amended): in every output of `groupMessagesByThreads`, each thread's
`messageCount` equals 1 plus its reply count and its replies are sorted
ascending by `created_at`; the standalone list is sorted ascending by
`created_at` provided no input message carries an empty-string thread parent
link. -/
theorem C6_ordering_and_count (ms : List Msg) :
    (∀ t ∈ (groupMessagesByThreads ms).threads,
        t.messageCount = 1 + t.replies.length ∧
        t.replies.Sorted createdLE) ∧
      ((∀ m ∈ ms, m.thread_id ≠ some "") →
        (groupMessagesByThreads ms).standaloneMessages.Sorted createdLE) := by
  constructor
  · intro t ht
    obtain ⟨e, he, hb⟩ := grouped_threads_mem ms t ht
    obtain ⟨-, hne⟩ := pass1_TR_mem' ms e he
    obtain ⟨t', hb', -, hc1, -, hsorted⟩ :=
      buildThread_some (p1 ms).parentMessages e.1 e.2 hne
    rw [hb] at hb'
    have ht' := Option.some.inj hb'
    rw [← ht'] at hc1 hsorted
    exact ⟨hc1, hsorted⟩
  · intro hclean
    rw [grouped_standalone]
    have hleft : ((p1 ms).parentMessages.filter
        (fun e => !(alHas (tmOf ms) e.1))).map Prod.snd = [] := by
      rw [List.map_eq_nil_iff, List.filter_eq_nil_iff]
      intro e he
      have hkey := parent_key_in_TR ms hclean e he
      rw [← alKeys_tmOf] at hkey
      simp only [alHas, Bool.not_eq_true', Bool.not_eq_false]
      rw [alGet_isSome_iff]
      exact hkey
    rw [hleft, List.append_nil]
    exact List.Pairwise.filter _ (sortByCreatedAt_sorted ms)

/-- C6 counterexample: with a message whose `thread_id` is the empty string
referencing a message whose `ts` is the empty string, the latter is recorded
as a parent with no reply list and is appended after later-created standalone
messages, so the standalone list is not sorted by `created_at`. -/
theorem C6_counterexample :
    ¬ ((groupMessagesByThreads
        [mkM 1 "" none 1, mkM 2 "x" (some "") 5]).standaloneMessages.Sorted
        createdLE) := by decide

/-- C6 witness at a concrete input. -/
theorem C6_witness :
    (∀ t ∈ (groupMessagesByThreads [mkM 1 "100" none 100,
        mkM 2 "101" (some "100") 101]).threads,
      t.messageCount = 1 + t.replies.length ∧
        t.replies.Sorted createdLE) ∧
    (groupMessagesByThreads [mkM 1 "100" none 100,
        mkM 2 "101" (some "100") 101]).standaloneMessages.Sorted createdLE :=
  ⟨(C6_ordering_and_count _).1, (C6_ordering_and_count _).2 (by decide)⟩

/-! ## Helpers for the single-thread scenarios (C2, C3) -/

theorem firstOccsFrom_subset (acc : List String) (ks : List String)
    (h : ∀ x ∈ ks, x ∈ acc) : firstOccsFrom acc ks = acc := by
  induction ks generalizing acc with
  | nil => rfl
  | cons k tail ih =>
    rw [firstOccsFrom_cons]
    have hk : setAdd acc k = acc := by
      unfold setAdd
      rw [if_pos (h k (List.mem_cons_self _ _))]
    rw [hk]
    exact ih acc fun x hx => h x (List.mem_cons_of_mem _ hx)

theorem firstOccs_const (ks : List String) (T : String)
    (hne : ks ≠ []) (hall : ∀ x ∈ ks, x = T) : firstOccs ks = [T] := by
  cases ks with
  | nil => exact absurd rfl hne
  | cons k tail =>
    have hk := hall k (List.mem_cons_self _ _)
    subst hk
    unfold firstOccs
    rw [firstOccsFrom_cons]
    have hset : setAdd [] k = [k] := by simp [setAdd]
    rw [hset]
    exact firstOccsFrom_subset _ _ fun x hx => by
      rw [hall x (List.mem_cons_of_mem _ hx)]
      exact List.mem_singleton.2 rfl

theorem alKeys_singleton {α : Type} (L : List (String × α)) (k : String)
    (h : alKeys L = [k]) : ∃ v, L = [(k, v)] := by
  cases L with
  | nil => cases h
  | cons e rest =>
    rw [alKeys, List.map_cons] at h
    injection h with h1 h2
    rw [List.map_eq_nil_iff] at h2
    exact ⟨e.2, by rw [h2, ← h1]⟩

theorem filter_eq_singleton (l : List Msg) (a : Msg) (p : Msg → Bool)
    (hiff : ∀ m ∈ l, (p m = true ↔ m = a))
    (hc : l.count a = 1) : l.filter p = [a] := by
  induction l with
  | nil => cases hc
  | cons x rest ih =>
    rw [List.filter_cons]
    by_cases hx : x = a
    · subst hx
      rw [if_pos ((hiff x (List.mem_cons_self _ _)).2 rfl)]
      rw [List.count_cons_self] at hc
      have hrest0 : rest.count x = 0 := by omega
      have hnomem : x ∉ rest := by
        rw [← List.count_pos_iff]
        omega
      have : rest.filter p = [] := by
        rw [List.filter_eq_nil_iff]
        intro m hm
        intro hpm
        exact hnomem (((hiff m (List.mem_cons_of_mem _ hm)).1 hpm) ▸ hm)
      rw [this]
    · rw [if_neg (by
        intro hpm
        exact hx ((hiff x (List.mem_cons_self _ _)).1 hpm))]
      rw [List.count_cons_of_ne (fun h => hx h.symm)] at hc
      exact ih (fun m hm => hiff m (List.mem_cons_of_mem _ hm)) hc

theorem sortByCreatedAt_of_sorted (l : List Msg) (h : l.Sorted createdLE) :
    sortByCreatedAt l = l :=
  h.insertionSort_eq

theorem pass1_parents (s : List Msg)
    (hnd : ((s.filter (isParentMsg s)).map Msg.ts).Nodup) :
    (pass1 s).parentMessages =
      (s.filter (isParentMsg s)).map (fun m => (m.ts, m)) := by
  unfold pass1
  rw [pass1_parents_aux s s _ hnd (by
    intro m _ _
    show m.ts ∉ alKeys ([] : List (String × Msg))
    simp [alKeys])]
  rfl

theorem pass1_TR_singleton (s : List Msg) (T : String)
    (hne : s.filterMap tkey ≠ [])
    (hall : ∀ x ∈ s.filterMap tkey, x = T) :
    (pass1 s).threadReplies =
      [(T, s.filter (fun m => decide (tkey m = some T)))] := by
  have hkeys : alKeys (pass1 s).threadReplies = [T] := by
    rw [pass1_TR_keys]
    exact firstOccs_const _ _ hne hall
  obtain ⟨v, hv⟩ := alKeys_singleton _ _ hkeys
  have hget : alGet (pass1 s).threadReplies T = some v := by
    rw [hv]
    simp [alGet]
  rw [pass1_TR_get] at hget
  by_cases hemp :
      (s.filter (fun m => decide (tkey m = some T))).isEmpty
  · rw [if_pos hemp] at hget
    exact Option.noConfusion hget
  · rw [if_neg hemp] at hget
    rw [hv, Option.some.inj hget]

/-- Shared scenario lemma: grouping a non-empty set of reply messages that
all share the (non-empty) thread parent timestamp `T` yields exactly one
orphan-promoted thread and no standalone messages. -/
theorem group_orphan_only (ms : List Msg) (T : String)
    (hne : ms ≠ []) (hT : T ≠ "")
    (hrep : ∀ m ∈ ms, m.thread_id = some T) :
    ∃ f rest, sortByCreatedAt ms = f :: rest ∧
      (∀ m ∈ ms, f.created_at ≤ m.created_at) ∧
      (groupMessagesByThreads ms).threads =
        [{ parentMessage := { f with thread_id := none }
           replies := rest
           threadId := T
           messageCount := ms.length }] ∧
      (groupMessagesByThreads ms).standaloneMessages = [] := by
  have htk : ∀ m ∈ sortByCreatedAt ms, tkey m = some T := fun m hm =>
    (tkey_eq_some_iff m T).2 ⟨hrep m ((sortByCreatedAt_mem ms m).1 hm), hT⟩
  obtain ⟨f, rest, hfr⟩ : ∃ f rest, sortByCreatedAt ms = f :: rest := by
    cases h : sortByCreatedAt ms with
    | nil => exact absurd ((sortByCreatedAt_nil_iff ms).1 h) hne
    | cons f rest => exact ⟨f, rest, rfl⟩
  have hfin : f ∈ sortByCreatedAt ms := by
    rw [hfr]
    exact List.mem_cons_self _ _
  have hfilter : (sortByCreatedAt ms).filter
      (fun m => decide (tkey m = some T)) = sortByCreatedAt ms := by
    rw [List.filter_eq_self]
    intro m hm
    rw [htk m hm]
    simp
  have hTR : (p1 ms).threadReplies = [(T, sortByCreatedAt ms)] := by
    unfold p1
    rw [pass1_TR_singleton (sortByCreatedAt ms) T ?hne2 ?hall, hfilter]
    case hne2 =>
      intro hnil
      have hmemT : T ∈ (sortByCreatedAt ms).filterMap tkey :=
        List.mem_filterMap.2 ⟨f, hfin, htk f hfin⟩
      rw [hnil] at hmemT
      exact List.not_mem_nil T hmemT
    case hall =>
      intro x hx
      obtain ⟨m, hm, hmx⟩ := List.mem_filterMap.1 hx
      have h1 := htk m hm
      rw [h1] at hmx
      exact (Option.some.inj hmx).symm
  have hparfilter : (sortByCreatedAt ms).filter
      (isParentMsg (sortByCreatedAt ms)) = [] := by
    rw [List.filter_eq_nil_iff]
    intro m hm
    unfold isParentMsg
    rw [htk m hm]
    simp
  have hpar : (p1 ms).parentMessages = [] := by
    unfold p1
    rw [pass1_parents _ (by rw [hparfilter]; simp), hparfilter]
    rfl
  have hss : sortByCreatedAt (sortByCreatedAt ms) = sortByCreatedAt ms :=
    sortByCreatedAt_of_sorted _ (sortByCreatedAt_sorted ms)
  refine ⟨f, rest, hfr, ?_, ?_, ?_⟩
  · intro m hm
    have hm' : m ∈ sortByCreatedAt ms := (sortByCreatedAt_mem ms m).2 hm
    rw [hfr] at hm'
    rcases List.mem_cons.1 hm' with rfl | hm''
    · exact Nat.le_refl _
    · have hsorted := sortByCreatedAt_sorted ms
      rw [hfr] at hsorted
      exact (List.sorted_cons.1 hsorted).1 m hm''
  · have hbuild : buildThread [] T (sortByCreatedAt ms) =
        some { parentMessage := { f with thread_id := none }
               replies := rest
               threadId := T
               messageCount := ms.length } := by
      unfold buildThread
      have h0 : alGet ([] : List (String × Msg)) T = none := rfl
      rw [h0, hss, hfr, ← sortByCreatedAt_length ms, hfr]
    rw [grouped_threads, hTR, hpar]
    simp only [List.filterMap_cons, List.filterMap_nil, hbuild]
  · rw [grouped_standalone, hpar]
    have hsf : (sortByCreatedAt ms).filter
        (isStandaloneMsg (sortByCreatedAt ms)) = [] := by
      rw [List.filter_eq_nil_iff]
      intro m hm
      unfold isStandaloneMsg
      rw [htk m hm]
      simp
    rw [hsf]
    simp

/-- C2: grouping a non-empty set of reply messages that all share the
(non-empty) thread parent timestamp `T`, none of which has timestamp `T`,
yields exactly one thread whose parent is the chronologically first reply
with its thread link cleared, whose replies are the remaining messages in
ascending `created_at` order, and whose `messageCount` is the number of
input messages; there are no standalone messages. -/
theorem C2_orphan_promotion (ms : List Msg) (T : String)
    (hne : ms ≠ []) (hT : T ≠ "")
    (hrep : ∀ m ∈ ms, m.thread_id = some T)
    (_hnoparent : ∀ m ∈ ms, m.ts ≠ T) :
    ∃ f rest, sortByCreatedAt ms = f :: rest ∧
      (∀ m ∈ ms, f.created_at ≤ m.created_at) ∧
      (groupMessagesByThreads ms).threads =
        [{ parentMessage := { f with thread_id := none }
           replies := rest
           threadId := T
           messageCount := ms.length }] ∧
      (groupMessagesByThreads ms).standaloneMessages = [] :=
  group_orphan_only ms T hne hT hrep

/-- C2 witness at a concrete input (two orphaned replies, out of order). -/
theorem C2_witness :
    ∃ f rest, sortByCreatedAt [mkM 1 "201" (some "90") 201,
        mkM 2 "200" (some "90") 200] = f :: rest ∧
      (∀ m ∈ [mkM 1 "201" (some "90") 201, mkM 2 "200" (some "90") 200],
        f.created_at ≤ m.created_at) ∧
      (groupMessagesByThreads [mkM 1 "201" (some "90") 201,
        mkM 2 "200" (some "90") 200]).threads =
        [{ parentMessage := { f with thread_id := none }
           replies := rest
           threadId := "90"
           messageCount :=
             [mkM 1 "201" (some "90") 201,
              mkM 2 "200" (some "90") 200].length }] ∧
      (groupMessagesByThreads [mkM 1 "201" (some "90") 201,
        mkM 2 "200" (some "90") 200]).standaloneMessages = [] :=
  C2_orphan_promotion _ "90" (by decide) (by decide) (by decide) (by decide)

/-- C3: grouping one parent message `P` (no thread link, non-empty `ts`)
together with a non-empty list `R` of replies all referencing `P.ts` yields
exactly one thread with parent `P`, `R.length` replies sorted ascending by
`created_at`, and `messageCount = 1 + R.length`. -/
theorem C3_thread_reconstruction (P : Msg) (R : List Msg)
    (hP : P.thread_id = none) (hts : P.ts ≠ "") (hR : R ≠ [])
    (hrep : ∀ r ∈ R, r.thread_id = some P.ts) :
    ∃ t, (groupMessagesByThreads (P :: R)).threads = [t] ∧
      t.parentMessage = P ∧
      t.replies.length = R.length ∧
      t.replies.Sorted createdLE ∧
      t.messageCount = 1 + R.length ∧
      t.threadId = P.ts := by
  have hsmem : ∀ m, m ∈ sortByCreatedAt (P :: R) ↔ m = P ∨ m ∈ R := by
    intro m
    rw [sortByCreatedAt_mem, List.mem_cons]
  have hRP : ∀ r ∈ R, r ≠ P := by
    intro r hr he
    have h1 := hrep r hr
    rw [he, hP] at h1
    exact Option.noConfusion h1
  have htkR : ∀ r ∈ R, tkey r = some P.ts := fun r hr =>
    (tkey_eq_some_iff r P.ts).2 ⟨hrep r hr, hts⟩
  have htkP : tkey P = none := by simp [tkey, hP]
  obtain ⟨r0, hr0⟩ := List.exists_mem_of_ne_nil R hR
  have hr0s : r0 ∈ sortByCreatedAt (P :: R) := (hsmem r0).2 (Or.inr hr0)
  have hTR : (p1 (P :: R)).threadReplies =
      [(P.ts, (sortByCreatedAt (P :: R)).filter
        (fun m => decide (tkey m = some P.ts)))] := by
    unfold p1
    apply pass1_TR_singleton
    · intro hnil
      have hPmem : P.ts ∈ (sortByCreatedAt (P :: R)).filterMap tkey :=
        List.mem_filterMap.2 ⟨r0, hr0s, htkR r0 hr0⟩
      rw [hnil] at hPmem
      exact List.not_mem_nil _ hPmem
    · intro x hx
      obtain ⟨m, hm, hmx⟩ := List.mem_filterMap.1 hx
      rcases (hsmem m).1 hm with rfl | hmR
      · rw [htkP] at hmx
        exact Option.noConfusion hmx
      · rw [htkR m hmR] at hmx
        exact (Option.some.inj hmx).symm
  have hvlen : ((sortByCreatedAt (P :: R)).filter
      (fun m => decide (tkey m = some P.ts))).length = R.length := by
    have hRfil : R.filter (fun m => decide (tkey m = some P.ts)) = R := by
      rw [List.filter_eq_self]
      intro r hr
      rw [htkR r hr]
      simp
    have hperm := (sortByCreatedAt_perm (P :: R)).filter
      (fun m => decide (tkey m = some P.ts))
    rw [hperm.length_eq, List.filter_cons]
    rw [if_neg (by rw [htkP]; simp)]
    rw [hRfil]
  have hfilterP : (sortByCreatedAt (P :: R)).filter
      (isParentMsg (sortByCreatedAt (P :: R))) = [P] := by
    apply filter_eq_singleton
    · intro m hm
      constructor
      · intro hpm
        rcases (hsmem m).1 hm with rfl | hmR
        · rfl
        · unfold isParentMsg at hpm
          rw [htkR m hmR] at hpm
          simp at hpm
      · rintro rfl
        unfold isParentMsg
        rw [htkP]
        simp only [Option.isNone_none, Bool.true_and]
        rw [referenced_iff]
        exact ⟨r0, hr0s, hrep r0 hr0⟩
    · rw [(sortByCreatedAt_perm (P :: R)).count_eq, List.count_cons_self]
      rw [List.count_eq_zero.2 (fun hPR => hRP P hPR rfl)]
  have hpar : (p1 (P :: R)).parentMessages = [(P.ts, P)] := by
    unfold p1
    rw [pass1_parents _ (by rw [hfilterP]; simp), hfilterP]
    rfl
  refine ⟨{ parentMessage := P
            replies := sortByCreatedAt ((sortByCreatedAt (P :: R)).filter
              (fun m => decide (tkey m = some P.ts)))
            threadId := P.ts
            messageCount := 1 + ((sortByCreatedAt (P :: R)).filter
              (fun m => decide (tkey m = some P.ts))).length },
    ?_, rfl, ?_, ?_, ?_, rfl⟩
  · rw [grouped_threads, hTR, hpar]
    simp only [List.filterMap_cons, List.filterMap_nil]
    have hget : alGet [(P.ts, P)] P.ts = some P := by simp [alGet]
    unfold buildThread
    rw [hget]
  · rw [sortByCreatedAt_length, hvlen]
  · exact sortByCreatedAt_sorted _
  · rw [hvlen]

/-- C3 witness at a concrete input (parent plus two out-of-order replies). -/
theorem C3_witness :
    ∃ t, (groupMessagesByThreads (mkM 1 "100" none 100 ::
        [mkM 2 "102" (some "100") 102, mkM 3 "101" (some "100") 101])).threads
        = [t] ∧
      t.parentMessage = mkM 1 "100" none 100 ∧
      t.replies.length = [mkM 2 "102" (some "100") 102,
        mkM 3 "101" (some "100") 101].length ∧
      t.replies.Sorted createdLE ∧
      t.messageCount = 1 + [mkM 2 "102" (some "100") 102,
        mkM 3 "101" (some "100") 101].length ∧
      t.threadId = (mkM 1 "100" none 100).ts :=
  C3_thread_reconstruction _ _ (by decide) (by decide) (by decide) (by decide)

theorem buildThread_threadId (P : List (String × Msg)) (k : String)
    (rs : List Msg) (t : MessageThread)
    (h : buildThread P k rs = some t) : t.threadId = k := by
  unfold buildThread at h
  cases hp : alGet P k with
  | some p =>
    rw [hp] at h
    rw [← Option.some.inj h]
  | none =>
    rw [hp] at h
    cases hs : sortByCreatedAt rs with
    | nil =>
      rw [hs] at h
      exact Option.noConfusion h
    | cons f rest =>
      rw [hs] at h
      rw [← Option.some.inj h]

/-- C10: grouping never alters a stored record: each thread's parent is either
an input message unchanged or, in the synthetic-parent case, a fresh copy of
an input reply with only the thread link cleared — the original reply still
carries its link and is a distinct value from the copy — and every output
reply is an input message unchanged. -/
theorem C10_no_mutation (ms : List Msg) :
    ∀ t ∈ (groupMessagesByThreads ms).threads,
      ((∃ p ∈ ms, t.parentMessage = p) ∨
        (∃ r ∈ ms, r.thread_id = some t.threadId ∧
          t.parentMessage = { r with thread_id := none } ∧
          t.parentMessage ≠ r)) ∧
      ∀ x ∈ t.replies, x ∈ ms := by
  intro t ht
  obtain ⟨e, he, hb⟩ := grouped_threads_mem ms t ht
  obtain ⟨hval, -⟩ := pass1_TR_mem' ms e he
  have htid := buildThread_threadId _ _ _ _ hb
  have hsub : ∀ x ∈ e.2, x ∈ ms := by
    intro x hx
    rw [hval] at hx
    exact (sortByCreatedAt_mem ms x).1 (List.mem_filter.1 hx).1
  have hkey : ∀ x ∈ e.2, tkey x = some e.1 := by
    intro x hx
    rw [hval] at hx
    simpa using (List.mem_filter.1 hx).2
  constructor
  · rcases buildThread_cases _ _ _ _ hb with ⟨p, hget, hpar, -⟩ |
      ⟨-, f, rest, hsort, hpar, -⟩
    · obtain ⟨hmem, -, -⟩ :=
        parents_referenced ms (e.1, p) (alGet_mem _ _ _ hget)
      exact Or.inl ⟨p, (sortByCreatedAt_mem ms p).1 hmem, hpar⟩
    · have hf2 : f ∈ e.2 := by
        have : f ∈ sortByCreatedAt e.2 := by
          rw [hsort]
          exact List.mem_cons_self _ _
        exact (sortByCreatedAt_mem e.2 f).1 this
      have hftid : f.thread_id = some e.1 :=
        ((tkey_eq_some_iff f e.1).1 (hkey f hf2)).1
      refine Or.inr ⟨f, hsub f hf2, by rw [hftid, htid], hpar, ?_⟩
      intro he'
      rw [hpar] at he'
      have h2 := congrArg Msg.thread_id he'
      rw [hftid] at h2
      exact Option.noConfusion
        (show (none : Option String) = some e.1 from h2)
  · intro x hx
    rcases buildThread_cases _ _ _ _ hb with ⟨p, -, -, hrep⟩ |
      ⟨-, f, rest, hsort, -, hrep⟩
    · rw [hrep] at hx
      exact hsub x ((sortByCreatedAt_mem e.2 x).1 hx)
    · rw [hrep] at hx
      have : x ∈ sortByCreatedAt e.2 := by
        rw [hsort]
        exact List.mem_cons_of_mem _ hx
      exact hsub x ((sortByCreatedAt_mem e.2 x).1 this)

/-- C10 witness at a concrete input (a single orphaned reply). -/
theorem C10_witness :
    ((∃ p ∈ [mkM 1 "200" (some "90") 200],
        (⟨mkM 1 "200" none 200, [], "90", 1⟩ :
          MessageThread).parentMessage = p) ∨
      (∃ r ∈ [mkM 1 "200" (some "90") 200],
        r.thread_id = some "90" ∧
        (⟨mkM 1 "200" none 200, [], "90", 1⟩ :
          MessageThread).parentMessage = { r with thread_id := none } ∧
        (⟨mkM 1 "200" none 200, [], "90", 1⟩ :
          MessageThread).parentMessage ≠ r)) ∧
    ∀ x ∈ (⟨mkM 1 "200" none 200, [], "90", 1⟩ : MessageThread).replies,
      x ∈ [mkM 1 "200" (some "90") 200] :=
  C10_no_mutation [mkM 1 "200" (some "90") 200]
    ⟨mkM 1 "200" none 200, [], "90", 1⟩ (by decide)

/-- C9: grouping is deterministic — the same list yields the same structurally
identical output — and moreover, when the `created_at` instants are pairwise
distinct, any reordering of the same input set grouped again yields the very
same `GroupedMessages` value. -/
theorem C9_idempotence (ms ms' : List Msg) :
    groupMessagesByThreads ms = groupMessagesByThreads ms ∧
      (List.Perm ms ms' →
        ms.Pairwise (fun a b => a.created_at ≠ b.created_at) →
        groupMessagesByThreads ms' = groupMessagesByThreads ms) := by
  refine ⟨rfl, fun hp hnd => ?_⟩
  have hsym : Symmetric (fun a b : Msg => a.created_at ≠ b.created_at) :=
    fun _ _ h => Ne.symm h
  have hsort : sortByCreatedAt ms' = sortByCreatedAt ms := by
    apply sorted_nodup_created_eq
    · exact (sortByCreatedAt_perm ms').trans
        (hp.symm.trans (sortByCreatedAt_perm ms).symm)
    · exact sortByCreatedAt_sorted ms'
    · exact sortByCreatedAt_sorted ms
    · exact (((sortByCreatedAt_perm ms').trans hp.symm).pairwise_iff
        (fun hab => Ne.symm hab)).2 hnd
  unfold groupMessagesByThreads
  rw [hsort]

/-- C9 witness at a concrete input (same set, different order). -/
theorem C9_witness :
    groupMessagesByThreads
        [mkM 2 "101" (some "100") 101, mkM 1 "100" none 100] =
      groupMessagesByThreads
        [mkM 1 "100" none 100, mkM 2 "101" (some "100") 101] :=
  (C9_idempotence _ _).2 (by decide) (by decide)

/-! ## Counting helpers for partition completeness (C1) -/

theorem threads_count_sum (P : List (String × Msg))
    (TR : List (String × List Msg)) (hne : ∀ e ∈ TR, e.2 ≠ []) :
    ((TR.filterMap (fun e => buildThread P e.1 e.2)).map
      MessageThread.messageCount).sum =
      (TR.map (fun e => e.2.length)).sum +
        TR.countP (fun e => decide (e.1 ∈ alKeys P)) := by
  induction TR with
  | nil => rfl
  | cons e rest ih =>
    rw [List.filterMap_cons]
    obtain ⟨t, hb, -, -, hcif, -⟩ :=
      buildThread_some P e.1 e.2 (hne e (List.mem_cons_self _ _))
    rw [hb]
    simp only [List.map_cons, List.sum_cons, List.countP_cons]
    rw [ih fun x hx => hne x (List.mem_cons_of_mem _ hx)]
    by_cases hk : e.1 ∈ alKeys P
    · rw [if_pos hk] at hcif
      simp [hcif, hk]
      omega
    · rw [if_neg hk] at hcif
      simp [hcif, hk]
      omega

theorem count_filterMap_tkey (s : List Msg) (k : String) :
    (s.filterMap tkey).count k =
      s.countP (fun m => decide (tkey m = some k)) := by
  induction s with
  | nil => rfl
  | cons m rest ih =>
    rw [List.filterMap_cons, List.countP_cons]
    cases htk : tkey m with
    | none => simp [htk, ih]
    | some tid =>
      by_cases hk : tid = k <;>
        simp [htk, hk, ih, List.count_cons]

theorem length_filterMap_tkey (s : List Msg) :
    (s.filterMap tkey).length = s.countP (fun m => (tkey m).isSome) := by
  induction s with
  | nil => rfl
  | cons m rest ih =>
    rw [List.filterMap_cons, List.countP_cons]
    cases htk : tkey m with
    | none => simp [htk, ih]
    | some tid => simp [htk, ih]

theorem list_toFinset_sum_count (l : List String) :
    ∑ a ∈ l.toFinset, l.count a = l.length := by
  have h := Multiset.toFinset_sum_count_eq (l : Multiset String)
  simp only [Multiset.coe_count, Multiset.coe_card] at h
  exact h

theorem sum_map_nodup_toFinset (ns : List String) (g : String → Nat)
    (h : ns.Nodup) : (ns.map g).sum = ∑ a ∈ ns.toFinset, g a := by
  induction ns with
  | nil => simp
  | cons k tail ih =>
    rw [List.nodup_cons] at h
    rw [List.map_cons, List.sum_cons, List.toFinset_cons,
      Finset.sum_insert (by simpa using h.1), ih h.2]

theorem sum_counts_firstOccs (K : List String) :
    ((firstOccs K).map (fun k => K.count k)).sum = K.length := by
  rw [sum_map_nodup_toFinset _ _ (nodup_firstOccs K)]
  have hfs : (firstOccs K).toFinset = K.toFinset := by
    ext x
    simp [List.mem_toFinset, mem_firstOccs]
  rw [hfs]
  exact list_toFinset_sum_count K

theorem countP_mem_comm (A B : List String) (hA : A.Nodup) (hB : B.Nodup) :
    A.countP (fun a => decide (a ∈ B)) =
      B.countP (fun b => decide (b ∈ A)) := by
  rw [List.countP_eq_length_filter, List.countP_eq_length_filter]
  have h1 : (A.filter (fun a => decide (a ∈ B))).Nodup := hA.filter _
  have h2 : (B.filter (fun b => decide (b ∈ A))).Nodup := hB.filter _
  rw [← List.toFinset_card_of_nodup h1, ← List.toFinset_card_of_nodup h2]
  congr 1
  ext x
  simp only [List.mem_toFinset, List.mem_filter, decide_eq_true_eq]
  exact And.comm

theorem countP_bool_split {α : Type} (l : List α) (p : α → Bool) :
    l.countP p + l.countP (fun a => !(p a)) = l.length := by
  induction l with
  | nil => rfl
  | cons a rest ih =>
    simp only [List.countP_cons, List.length_cons]
    cases hpa : p a <;> simp [hpa] <;> omega

theorem count_partition (all : List Msg) (s : List Msg) :
    s.countP (fun m => (tkey m).isSome) +
      (s.countP (isParentMsg all) + s.countP (isStandaloneMsg all)) =
      s.length := by
  induction s with
  | nil => rfl
  | cons m rest ih =>
    simp only [List.countP_cons, List.length_cons]
    cases htk : tkey m with
    | some tid =>
      simp only [isParentMsg, isStandaloneMsg, htk]
      simp
      omega
    | none =>
      simp only [isParentMsg, isStandaloneMsg, htk]
      by_cases hr : referenced all m.ts
      · simp [hr]
        omega
      · simp [hr]
        omega

/-- C1 counterexample: two distinct parent-classified messages sharing a `ts`
(different channels) collapse to one entry of the parents map, dropping one
message: three pairwise-distinct inputs yield `totalMessageCount = 2`. -/
theorem C1_counterexample :
    ([(⟨1, "CA", "U1", "u", "t", "100", none, 1⟩ : Msg),
      ⟨2, "CB", "U1", "u", "t", "100", none, 2⟩,
      ⟨3, "CA", "U1", "u", "t", "9", some "100", 3⟩] : List Msg).Nodup ∧
    (groupMessagesByThreads
      [⟨1, "CA", "U1", "u", "t", "100", none, 1⟩,
       ⟨2, "CB", "U1", "u", "t", "100", none, 2⟩,
       ⟨3, "CA", "U1", "u", "t", "9", some "100", 3⟩]).totalMessageCount
      = 2 ∧
    ([(⟨1, "CA", "U1", "u", "t", "100", none, 1⟩ : Msg),
      ⟨2, "CB", "U1", "u", "t", "100", none, 2⟩,
      ⟨3, "CA", "U1", "u", "t", "9", some "100", 3⟩] : List Msg).length
      = 3 := by decide

/-- C1 (amended): for every input list whose `ts` values are pairwise
distinct, `totalMessageCount` equals the sum of all thread `messageCount`s
plus the number of standalone messages, and equals the number of input
messages — no message is dropped or duplicated. -/
theorem C1_partition_completeness (ms : List Msg)
    (hts : ms.Pairwise (fun a b => a.ts ≠ b.ts)) :
    (groupMessagesByThreads ms).totalMessageCount =
      ((groupMessagesByThreads ms).threads.map
        MessageThread.messageCount).sum +
      (groupMessagesByThreads ms).standaloneMessages.length ∧
    (groupMessagesByThreads ms).totalMessageCount = ms.length := by
  refine ⟨grouped_total ms, ?_⟩
  rw [grouped_total ms]
  have hts_s : (sortByCreatedAt ms).Pairwise (fun a b => a.ts ≠ b.ts) :=
    ((sortByCreatedAt_perm ms).pairwise_iff (fun hab => Ne.symm hab)).2 hts
  have hndP : (((sortByCreatedAt ms).filter
      (isParentMsg (sortByCreatedAt ms))).map Msg.ts).Nodup :=
    List.Pairwise.map Msg.ts (fun _ _ h => h)
      (List.Pairwise.filter _ hts_s)
  have hpar := pass1_parents (sortByCreatedAt ms) hndP
  have hkeysP : alKeys (p1 ms).parentMessages =
      ((sortByCreatedAt ms).filter
        (isParentMsg (sortByCreatedAt ms))).map Msg.ts := by
    show alKeys (pass1 (sortByCreatedAt ms)).parentMessages = _
    rw [hpar]
    unfold alKeys
    rw [List.map_map]
    rfl
  have hTRnodup : (alKeys (p1 ms).threadReplies).Nodup :=
    pass1_TR_keys_nodup (sortByCreatedAt ms)
  -- sum of reply-list sizes = number of truthy-reply messages
  have hE1 : ((p1 ms).threadReplies.map (fun e => e.2.length)).sum =
      (sortByCreatedAt ms).countP (fun m => (tkey m).isSome) := by
    have hmapc : (p1 ms).threadReplies.map (fun e => e.2.length) =
        (p1 ms).threadReplies.map (fun e =>
          ((sortByCreatedAt ms).filter
            (fun m => decide (tkey m = some e.1))).length) :=
      List.map_congr_left fun e he => by rw [(pass1_TR_mem' ms e he).1]
    rw [hmapc]
    have hcomp : (p1 ms).threadReplies.map (fun e =>
        ((sortByCreatedAt ms).filter
          (fun m => decide (tkey m = some e.1))).length) =
        (alKeys (p1 ms).threadReplies).map (fun k =>
          ((sortByCreatedAt ms).filter
            (fun m => decide (tkey m = some k))).length) := by
      unfold alKeys
      rw [List.map_map]
      rfl
    rw [hcomp]
    show ((alKeys (pass1 (sortByCreatedAt ms)).threadReplies).map _).sum = _
    rw [pass1_TR_keys]
    have hto : (firstOccs ((sortByCreatedAt ms).filterMap tkey)).map
        (fun k => ((sortByCreatedAt ms).filter
          (fun m => decide (tkey m = some k))).length) =
        (firstOccs ((sortByCreatedAt ms).filterMap tkey)).map
          (fun k => ((sortByCreatedAt ms).filterMap tkey).count k) :=
      List.map_congr_left fun k _ => by
        rw [← List.countP_eq_length_filter, count_filterMap_tkey]
    rw [hto, sum_counts_firstOccs, length_filterMap_tkey]
  -- thread count with recorded parent, counted over keys
  have hE2 : (p1 ms).threadReplies.countP
      (fun e => decide (e.1 ∈ alKeys (p1 ms).parentMessages)) =
      (alKeys (p1 ms).threadReplies).countP
        (fun k => decide (k ∈ alKeys (p1 ms).parentMessages)) := by
    unfold alKeys
    rw [List.countP_map]
    rfl
  have hndP' : (alKeys (p1 ms).parentMessages).Nodup := by
    rw [hkeysP]
    exact hndP
  have hE3 : (alKeys (p1 ms).threadReplies).countP
      (fun k => decide (k ∈ alKeys (p1 ms).parentMessages)) =
      (alKeys (p1 ms).parentMessages).countP
        (fun k => decide (k ∈ alKeys (p1 ms).threadReplies)) :=
    countP_mem_comm _ _ hTRnodup hndP'
  have hE5 : (alKeys (p1 ms).parentMessages).countP
      (fun k => decide (k ∈ alKeys (p1 ms).threadReplies)) =
      (p1 ms).parentMessages.countP
        (fun e => decide (e.1 ∈ alKeys (p1 ms).threadReplies)) := by
    unfold alKeys
    rw [List.countP_map]
    rfl
  -- recorded parents split into thread parents and leftover standalone
  have halHas : ∀ e : String × Msg,
      alHas (tmOf ms) e.1 =
        decide (e.1 ∈ alKeys (p1 ms).threadReplies) := by
    intro e
    by_cases h : e.1 ∈ alKeys (p1 ms).threadReplies
    · have h1 : alHas (tmOf ms) e.1 = true :=
        (alGet_isSome_iff _ _).2 (by rw [alKeys_tmOf ms]; exact h)
      rw [h1]
      exact (decide_eq_true h).symm
    · have h1 : alHas (tmOf ms) e.1 = false := by
        unfold alHas
        rw [(alGet_eq_none_iff _ _).2 (by rw [alKeys_tmOf ms]; exact h)]
        rfl
      rw [h1]
      exact (decide_eq_false h).symm
  have hE4 : (p1 ms).parentMessages.countP
        (fun e => decide (e.1 ∈ alKeys (p1 ms).threadReplies)) +
      (p1 ms).parentMessages.countP
        (fun e => !(alHas (tmOf ms) e.1)) =
      (p1 ms).parentMessages.length := by
    have hcongr : (p1 ms).parentMessages.countP
        (fun e => !(alHas (tmOf ms) e.1)) =
        (p1 ms).parentMessages.countP
          (fun e => !(decide (e.1 ∈ alKeys (p1 ms).threadReplies))) := by
      rw [List.countP_eq_length_filter, List.countP_eq_length_filter,
        List.filter_congr (fun e _ => by rw [halHas e])]
    rw [hcongr]
    exact countP_bool_split _ _
  have hE6 : (p1 ms).parentMessages.length =
      (sortByCreatedAt ms).countP (isParentMsg (sortByCreatedAt ms)) := by
    show (pass1 (sortByCreatedAt ms)).parentMessages.length = _
    rw [hpar, List.length_map, ← List.countP_eq_length_filter]
  have hpart := count_partition (sortByCreatedAt ms) (sortByCreatedAt ms)
  have hlen : (sortByCreatedAt ms).length = ms.length :=
    sortByCreatedAt_length ms
  -- assemble
  rw [grouped_threads,
    threads_count_sum _ _ (fun e he => (pass1_TR_mem' ms e he).2),
    grouped_standalone, List.length_append, List.length_map]
  simp only [← List.countP_eq_length_filter]
  omega

/-- C1 witness at the spec's end-to-end scenario. -/
theorem C1_witness :
    (groupMessagesByThreads [mkM 1 "100" none 100,
        mkM 2 "101" (some "100") 101, mkM 3 "102" (some "100") 102,
        mkM 4 "103" none 103]).totalMessageCount =
      ((groupMessagesByThreads [mkM 1 "100" none 100,
        mkM 2 "101" (some "100") 101, mkM 3 "102" (some "100") 102,
        mkM 4 "103" none 103]).threads.map
          MessageThread.messageCount).sum +
      (groupMessagesByThreads [mkM 1 "100" none 100,
        mkM 2 "101" (some "100") 101, mkM 3 "102" (some "100") 102,
        mkM 4 "103" none 103]).standaloneMessages.length ∧
    (groupMessagesByThreads [mkM 1 "100" none 100,
        mkM 2 "101" (some "100") 101, mkM 3 "102" (some "100") 102,
        mkM 4 "103" none 103]).totalMessageCount =
      [mkM 1 "100" none 100, mkM 2 "101" (some "100") 101,
       mkM 3 "102" (some "100") 102, mkM 4 "103" none 103].length :=
  C1_partition_completeness _ (by decide)

/-! ## Identity-reference validation (src/utils/validation.ts) -/

/-- `ValidationResult` from validation.ts. -/
structure ValidationResult where
  isValid : Bool
  error : Option String
deriving Repr, DecidableEq

/-- The regex class `\w`: `[A-Za-z0-9_]`. -/
def isWordChar (c : Char) : Bool :=
  ('a' ≤ c && c ≤ 'z') || ('A' ≤ c && c ≤ 'Z') || ('0' ≤ c && c ≤ '9') ||
    c == '_'

/-- One character of the name class `[\p{L}\p{N}._-]`, parameterized by the
Unicode letter/number class `alnumLike` (the embedding does not commit to the
Unicode tables behind `\p{L}`/`\p{N}`). -/
def isNameChar (alnumLike : Char → Bool) (c : Char) : Bool :=
  alnumLike c || c == '.' || c == '_' || c == '-'

/-- The alternative `<@[UWS][\w]+>` of the mention regex, on the whole
character list. -/
def matchBracketId : List Char → Bool
  | '<' :: '@' :: s :: rest =>
    (s == 'U' || s == 'W' || s == 'S') &&
      (rest.getLast? == some '>') &&
      (!rest.dropLast.isEmpty) && rest.dropLast.all isWordChar
  | _ => false

/-- The alternative `[UWS][\w]+` of the mention regex. -/
def matchBareId : List Char → Bool
  | s :: rest =>
    (s == 'U' || s == 'W' || s == 'S') && (!rest.isEmpty) &&
      rest.all isWordChar
  | [] => false

/-- The alternative `@?[\p{L}\p{N}._-]+` of the mention regex: an optionally
`@`-prefixed non-empty run of name characters. -/
def matchName (alnumLike : Char → Bool) (cs : List Char) : Bool :=
  ((!cs.isEmpty) && cs.all (isNameChar alnumLike)) ||
    (match cs with
     | '@' :: rest => (!rest.isEmpty) && rest.all (isNameChar alnumLike)
     | _ => false)

/-- The whole-string mention regex
`^(@?[\p{L}\p{N}._-]+|<@[UWS][\w]+>|[UWS][\w]+)$`. -/
def validMentionPattern (alnumLike : Char → Bool) (cs : List Char) : Bool :=
  matchName alnumLike cs || matchBracketId cs || matchBareId cs

/-- JS `String.prototype.trim` whitespace test (ASCII whitespace; JS also
trims Unicode spaces, which no accepted shape contains). -/
def isJsSpace (c : Char) : Bool :=
  c == ' ' || c == '\t' || c == '\n' || c == '\r' ||
    c == Char.ofNat 12 || c == Char.ofNat 11

/-- JS `String.prototype.trim` on a character list. -/
def jsTrim (s : List Char) : List Char :=
  ((s.dropWhile isJsSpace).reverse.dropWhile isJsSpace).reverse

/-- `validateUserMention` (validation.ts lines 34-54), parameterized by the
`\p{L}\p{N}` character class of the `u`-flagged regex.  `!mention` (JS
falsiness of the empty string) is subsumed by the trimmed-length test. -/
def validateUserMention (alnumLike : Char → Bool) (mention : String) :
    ValidationResult :=
  if mention = "" ∨ (jsTrim mention.toList).length = 0 then
    { isValid := false, error := some "User mention cannot be empty" }
  else
    let trimmedMention : String := ⟨jsTrim mention.toList⟩
    if !(validMentionPattern alnumLike trimmedMention.toList) then
      { isValid := false
        error := some ("Invalid user mention format: \"" ++ trimmedMention ++
          "\". Expected formats: @username, username, <@U123456>, or U123456") }
    else
      { isValid := true, error := none }

-- Sanity checks against the shapes documented in the source, with the ASCII
-- letter-or-digit instance of the class.
example : (validateUserMention (fun c => c.isAlpha || c.isDigit)
    "@john.doe-1").isValid = true := by decide

example : (validateUserMention (fun c => c.isAlpha || c.isDigit)
    "<@U123456>").isValid = true := by decide

example : (validateUserMention (fun c => c.isAlpha || c.isDigit)
    "U123456").isValid = true := by decide

example : (validateUserMention (fun c => c.isAlpha || c.isDigit)
    "  W9  ").isValid = true := by decide

example : validateUserMention (fun c => c.isAlpha || c.isDigit) "   " =
    { isValid := false, error := some "User mention cannot be empty" } := by
  decide

example : (validateUserMention (fun c => c.isAlpha || c.isDigit)
    "a b").isValid = false := by decide

example : (validateUserMention (fun c => c.isAlpha || c.isDigit)
    "<@X123>").isValid = false := by decide

/-- C8: `validateUserMention` reports a reference valid iff it is non-empty
after trimming and matches one of the three accepted shapes (`@`-optional
name, bracketed ID, bare ID); the empty rejection and the malformed rejection
carry exactly the documented messages, and the function is total — it always
returns a `ValidationResult`, with an error message present iff the reference
is invalid. -/
theorem C8_identity_reference_validation (alnumLike : Char → Bool)
    (mention : String) :
    ((validateUserMention alnumLike mention).isValid = true ↔
      ((jsTrim mention.toList).length ≠ 0 ∧
        validMentionPattern alnumLike (jsTrim mention.toList) = true)) ∧
    ((jsTrim mention.toList).length = 0 →
      (validateUserMention alnumLike mention).error =
        some "User mention cannot be empty") ∧
    ((jsTrim mention.toList).length ≠ 0 →
      validMentionPattern alnumLike (jsTrim mention.toList) = false →
      (validateUserMention alnumLike mention).error =
        some ("Invalid user mention format: \"" ++
          String.mk (jsTrim mention.toList) ++
          "\". Expected formats: @username, username, <@U123456>, or U123456")) ∧
    ((validateUserMention alnumLike mention).isValid = true ↔
      (validateUserMention alnumLike mention).error = none) := by
  unfold validateUserMention
  have htl : (String.mk (jsTrim mention.toList)).toList =
      jsTrim mention.toList := rfl
  by_cases h0 : mention = "" ∨ (jsTrim mention.toList).length = 0
  · rw [if_pos h0]
    have hz : (jsTrim mention.toList).length = 0 := by
      rcases h0 with rfl | h0
      · rfl
      · exact h0
    refine ⟨?_, fun _ => rfl, fun hnz _ => absurd hz hnz, ?_⟩
    · exact iff_of_false (by simp) (fun hc => hc.1 hz)
    · simp
  · rw [if_neg h0]
    push_neg at h0
    have hnz : (jsTrim mention.toList).length ≠ 0 := h0.2
    by_cases hp : validMentionPattern alnumLike (jsTrim mention.toList)
    · rw [if_neg (by rw [htl, hp]; simp)]
      refine ⟨?_, fun hz => absurd hz hnz, fun _ hnp => ?_, ?_⟩
      · exact iff_of_true rfl ⟨hnz, hp⟩
      · rw [hp] at hnp
        exact Bool.noConfusion hnp
      · simp
    · have hpf : validMentionPattern alnumLike (jsTrim mention.toList)
          = false := Bool.eq_false_iff.2 hp
      rw [if_pos (by rw [htl, hpf]; rfl)]
      refine ⟨?_, fun hz => absurd hz hnz, fun _ _ => rfl, ?_⟩
      · exact iff_of_false (by simp) (fun hc => hp hc.2)
      · simp

/-- C8 witness at a concrete input (a bracketed ID, with the ASCII letter or
digit class). -/
theorem C8_witness :
    (validateUserMention (fun c => c.isAlpha || c.isDigit)
      "<@U123456>").isValid = true ↔
      ((jsTrim (String.toList "<@U123456>")).length ≠ 0 ∧
        validMentionPattern (fun c => c.isAlpha || c.isDigit)
          (jsTrim (String.toList "<@U123456>")) = true) :=
  (C8_identity_reference_validation _ _).1

/-! ## Message store queries (src/packages/db/messageQueries.ts) -/

/-- A JS `Date`: `none` is an Invalid Date (`getTime()` is NaN), `some t` the
epoch-millisecond instant.  ISO strings of valid dates compare like their
instants, so SQL string comparison on `created_at` is `≤` on these. -/
abbrev JSDate := Option Nat

/-- `users` table row (columns read by the queries). -/
structure UserRec where
  user_id : String
  user_name : String
  nickname : String
deriving Repr, DecidableEq

/-- `mentions` table row. -/
structure MentionRec where
  channel_id : String
  message_ts : String
  user_id : String
deriving Repr, DecidableEq

/-- The SQLite handle, modelled as its table contents. -/
structure DBM where
  messages : List Msg
  users : List UserRec
  mentions : List MentionRec
deriving Repr, DecidableEq

/-- `validateDateRange` (messageQueries.ts lines 7-17): throws on an invalid
start date, then an invalid end date, then an inverted range. -/
def validateDateRange (startDate endDate : JSDate) : Except String Unit :=
  match startDate with
  | none => .error "Invalid start date"
  | some s =>
    match endDate with
    | none => .error "Invalid end date"
    | some e =>
      if e < s then .error "Start date must be before or equal to end date"
      else .ok ()

/-- `created_at >= ? AND created_at <= ?` against the two `Date` parameters
(false on an Invalid Date, as NaN comparisons are). -/
def dateInRange (startDate endDate : JSDate) (t : Nat) : Bool :=
  match startDate, endDate with
  | some s, some e => s ≤ t && t ≤ e
  | _, _ => false

/-- `getMessagesInTimeRange` (lines 22-41): validate, then select the rows in
range ordered by `created_at`. -/
def getMessagesInTimeRange (db : DBM) (startDate endDate : JSDate) :
    Except String (List Msg) :=
  match validateDateRange startDate endDate with
  | .error err => .error err
  | .ok _ =>
    .ok (sortByCreatedAt (db.messages.filter
      (fun m => dateInRange startDate endDate m.created_at)))

/-- One `userContainings` entry's WHERE disjunct (lines 218-233): a `U`-led
reference matches `user_id`, anything else matches `user_name` with a leading
`@` stripped. -/
def fromUserCond (userContaining : String) (m : Msg) : Bool :=
  if userContaining.startsWith "U" then
    m.user_id == userContaining
  else
    let cleanUsername :=
      if userContaining.startsWith "@" then userContaining.drop 1
      else userContaining
    m.user_name == cleanUsername

/-- `getMessagesFromUsers` (lines 199-252). -/
def getMessagesFromUsers (db : DBM) (startDate endDate : JSDate)
    (userContainings : List String) : Except String (List Msg) :=
  match validateDateRange startDate endDate with
  | .error err => .error err
  | .ok _ =>
    if userContainings.isEmpty then
      getMessagesInTimeRange db startDate endDate
    else
      .ok (sortByCreatedAt (db.messages.filter (fun m =>
        dateInRange startDate endDate m.created_at &&
          userContainings.any (fun u => fromUserCond u m))))

/-- SQLite `LIKE` (no ESCAPE clause): `%` matches any run, `_` one character,
ASCII letters compare case-insensitively. -/
def likeMatch : List Char → List Char → Bool
  | [], t => t.isEmpty
  | p :: ps, t =>
    if p = '%' then
      likeMatch ps t ||
        (match t with
         | [] => false
         | _ :: ts => likeMatch (p :: ps) ts)
    else
      match t with
      | [] => false
      | c :: ts =>
        (if p = '_' then true else p.toLower == c.toLower) &&
          likeMatch ps ts
termination_by p t => p.length + t.length
decreasing_by all_goals simp_arith [List.length_cons]

/-- `column LIKE '%pat%'`. -/
def likeParam (pat text : String) : Bool :=
  likeMatch ("%" ++ pat ++ "%").toList text.toList

/-- Pattern derivation for one mention reference (lines 133-154): returns
`(userIdPattern, usernamePattern)`. -/
def mentionPatterns (userMention : String) : String × String :=
  if userMention.startsWith "<@" && userMention.endsWith ">" then
    (userMention, (userMention.drop 2).dropRight 1)
  else if userMention.startsWith "U" || userMention.startsWith "S" then
    ("<@" ++ userMention ++ ">", userMention)
  else
    let cleanUsername :=
      if userMention.startsWith "@" then userMention.drop 1 else userMention
    ("@" ++ cleanUsername, cleanUsername)

/-- One mention reference's WHERE disjunct (lines 157-171), evaluated through
the LEFT JOINs on `mentions` (by channel and ts) and `users` (by user id).
The source pushes the same `text LIKE ?` twice; a NULL `men.user_id`
parameter (reference not `U`/`S`-led) matches nothing. -/
def mentionCond (db : DBM) (userMention : String) (m : Msg) : Bool :=
  let pats := mentionPatterns userMention
  likeParam pats.1 m.text ||
    db.mentions.any (fun men =>
      (men.channel_id == m.channel_id && men.message_ts == m.ts) &&
        (db.users.any (fun u =>
          u.user_id == men.user_id &&
            (u.user_name == pats.2 || u.nickname == pats.2)) ||
          (if pats.2.startsWith "U" || pats.2.startsWith "S" then
            men.user_id == pats.2
          else false)))

/-- `getMessagesWithMultipleUserMentions` (lines 114-193).  `SELECT DISTINCT`
only deduplicates join-multiplied rows, which selecting the message columns of
a filtered row set already avoids. -/
def getMessagesWithMultipleUserMentions (db : DBM)
    (startDate endDate : JSDate) (userMentions : List String) :
    Except String (List Msg) :=
  match validateDateRange startDate endDate with
  | .error err => .error err
  | .ok _ =>
    if userMentions.isEmpty then
      getMessagesInTimeRange db startDate endDate
    else
      .ok (sortByCreatedAt (db.messages.filter (fun m =>
        dateInRange startDate endDate m.created_at &&
          userMentions.any (fun um => mentionCond db um m))))

/-- `getThreadMessages` (lines 256-274): the parent (matching `ts` with NULL
`thread_id`) and all replies (`thread_id = parentTs`), by `created_at`; no
range validation and no date restriction. -/
def getThreadMessages (db : DBM) (parentTs : String) : List Msg :=
  sortByCreatedAt (db.messages.filter (fun m =>
    tidEq m.thread_id parentTs ||
      (m.ts == parentTs && m.thread_id == none)))

/-- C7: `validateDateRange` (and with it every message query) fails exactly
when the start is not a valid instant, the end is not a valid instant, or the
start is later than the end; each failure carries the documented message
naming the offending bound; `start = end` is accepted; and all three message
queries return the failure unchanged for every store content, i.e. before any
storage query executes. -/
theorem C7_invalid_range_fail_fast (startDate endDate : JSDate) :
    ((∃ err, validateDateRange startDate endDate = .error err) ↔
      (startDate = none ∨ endDate = none ∨
        ∃ s e, startDate = some s ∧ endDate = some e ∧ e < s)) ∧
    (startDate = none →
      validateDateRange startDate endDate = .error "Invalid start date") ∧
    (∀ s, startDate = some s → endDate = none →
      validateDateRange startDate endDate = .error "Invalid end date") ∧
    (∀ s e, startDate = some s → endDate = some e → e < s →
      validateDateRange startDate endDate =
        .error "Start date must be before or equal to end date") ∧
    (∀ s, startDate = some s → endDate = some s →
      validateDateRange startDate endDate = .ok ()) ∧
    (∀ err, validateDateRange startDate endDate = .error err →
      ∀ db us refs,
        getMessagesInTimeRange db startDate endDate = .error err ∧
        getMessagesFromUsers db startDate endDate us = .error err ∧
        getMessagesWithMultipleUserMentions db startDate endDate refs =
          .error err) := by
  refine ⟨?_, ?_, ?_, ?_, ?_, ?_⟩
  · cases startDate with
    | none =>
      exact iff_of_true ⟨"Invalid start date", rfl⟩ (Or.inl rfl)
    | some s =>
      cases endDate with
      | none =>
        exact iff_of_true ⟨"Invalid end date", rfl⟩ (Or.inr (Or.inl rfl))
      | some e =>
        have hval : validateDateRange (some s) (some e) =
            if e < s then
              .error "Start date must be before or equal to end date"
            else .ok () := rfl
        by_cases h : e < s
        · refine iff_of_true
            ⟨"Start date must be before or equal to end date", ?_⟩
            (Or.inr (Or.inr ⟨s, e, rfl, rfl, h⟩))
          rw [hval, if_pos h]
        · refine iff_of_false ?_ ?_
          · rintro ⟨err, herr⟩
            rw [hval, if_neg h] at herr
            exact Except.noConfusion herr
          · rintro (hc | hc | ⟨s', e', hs', he', hlt⟩)
            · exact Option.noConfusion hc
            · exact Option.noConfusion hc
            · injection hs' with hs'
              injection he' with he'
              subst hs'
              subst he'
              exact h hlt
  · rintro rfl
    rfl
  · rintro s rfl rfl
    rfl
  · rintro s e rfl rfl hlt
    show (if e < s then _ else _) = _
    rw [if_pos hlt]
  · rintro s rfl rfl
    show (if s < s then _ else _) = _
    rw [if_neg (Nat.lt_irrefl s)]
  · intro err herr db us refs
    refine ⟨?_, ?_, ?_⟩
    · unfold getMessagesInTimeRange
      rw [herr]
    · unfold getMessagesFromUsers
      rw [herr]
    · unfold getMessagesWithMultipleUserMentions
      rw [herr]

/-- C7 witness: an inverted range at a concrete store. -/
theorem C7_witness :
    validateDateRange (some 5) (some 3) =
      .error "Start date must be before or equal to end date" ∧
    getMessagesInTimeRange ⟨[], [], []⟩ (some 5) (some 3) =
      .error "Start date must be before or equal to end date" ∧
    validateDateRange (some 4) (some 4) = .ok () := by
  have h := C7_invalid_range_fail_fast (some 5) (some 3)
  refine ⟨h.2.2.2.1 5 3 rfl rfl (by decide), ?_, ?_⟩
  · exact (h.2.2.2.2.2 _ (h.2.2.2.1 5 3 rfl rfl (by decide)) ⟨[], [], []⟩
      [] []).1
  · exact (C7_invalid_range_fail_fast (some 4) (some 4)).2.2.2.2.1 4 rfl rfl

/-! ## Filtered grouped retrieval (messageRetriever.ts, lines 118-178) -/

/-- `MessageFilter` (lines 14-20): optional fields are `none` for JS
`undefined`. -/
structure MessageFilter where
  startDate : JSDate
  endDate : JSDate
  userMentions : Option (List String)
  userContainings : Option (List String)
  includeThreads : Option Bool
deriving Repr, DecidableEq

/-- `filter.userMentions && filter.userMentions.length > 0`. -/
def hasEntries : Option (List String) → Bool
  | some l => decide (0 < l.length)
  | none => false

/-- JS truthiness of the optional `includeThreads` flag. -/
def includeThreadsB : Option Bool → Bool
  | some b => b
  | none => false

/-- Thread-key collection (lines 150-157): add the message's truthy
`thread_id`, then its own `ts`, to the insertion-ordered key set. -/
def collectKeysStep (acc : List String) (message : Msg) : List String :=
  let acc1 :=
    match message.thread_id with
    | some tid => if tid = "" then acc else setAdd acc tid
    | none => acc
  setAdd acc1 message.ts

def collectThreadKeys (messages : List Msg) : List String :=
  messages.foldl collectKeysStep []

/-- Window-bounded merge of one thread's members (lines 160-171): a fetched
member is appended only if no present message carries its `id` and its
`created_at` lies within `[startDate, endDate]`. -/
def mergeThreadMsgs (startDate endDate : JSDate) (acc : List Msg)
    (threadMsgs : List Msg) : List Msg :=
  threadMsgs.foldl (fun acc threadMsg =>
    if (!acc.any (fun m => m.id == threadMsg.id)) &&
        dateInRange startDate endDate threadMsg.created_at then
      acc ++ [threadMsg]
    else acc) acc

/-- The `includeThreads` expansion (lines 146-174). -/
def expandThreads (db : DBM) (filter : MessageFilter)
    (messages : List Msg) : List Msg :=
  (collectThreadKeys messages).foldl
    (fun acc threadId =>
      mergeThreadMsgs filter.startDate filter.endDate acc
        (getThreadMessages db threadId))
    messages

/-- `getFilteredMessagesGrouped` (lines 118-178): validate, select the base
row set by the identity filters, optionally expand threads within the window,
then group. -/
def getFilteredMessagesGrouped (db : DBM) (filter : MessageFilter) :
    Except String GroupedMessages :=
  match validateDateRange filter.startDate filter.endDate with
  | .error err => .error err
  | .ok _ =>
    let base :=
      if hasEntries filter.userMentions then
        getMessagesWithMultipleUserMentions db filter.startDate
          filter.endDate (filter.userMentions.getD [])
      else if hasEntries filter.userContainings then
        getMessagesFromUsers db filter.startDate filter.endDate
          (filter.userContainings.getD [])
      else
        getMessagesInTimeRange db filter.startDate filter.endDate
    match base with
    | .error err => .error err
    | .ok messages =>
      let expanded :=
        if includeThreadsB filter.includeThreads then
          expandThreads db filter messages
        else messages
      .ok (groupMessagesByThreads expanded)

theorem getThreadMessages_mem (db : DBM) (parentTs : String) (x : Msg)
    (h : x ∈ getThreadMessages db parentTs) : x ∈ db.messages := by
  unfold getThreadMessages at h
  rw [sortByCreatedAt_mem] at h
  exact (List.mem_filter.1 h).1

theorem mergeThreadMsgs_mem (startDate endDate : JSDate)
    (tms : List Msg) :
    ∀ (acc : List Msg) (x : Msg),
      x ∈ mergeThreadMsgs startDate endDate acc tms →
      x ∈ acc ∨ (x ∈ tms ∧
        dateInRange startDate endDate x.created_at = true) := by
  induction tms with
  | nil => exact fun acc x hx => Or.inl hx
  | cons t rest ih =>
    intro acc x hx
    unfold mergeThreadMsgs at hx
    rw [List.foldl_cons] at hx
    by_cases hc : (!acc.any (fun m => m.id == t.id)) &&
        dateInRange startDate endDate t.created_at
    · rw [if_pos hc] at hx
      rcases ih (acc ++ [t]) x hx with h | h
      · rcases List.mem_append.1 h with h' | h'
        · exact Or.inl h'
        · rw [List.mem_singleton] at h'
          subst h'
          rw [Bool.and_eq_true] at hc
          exact Or.inr ⟨List.mem_cons_self _ _, hc.2⟩
      · exact Or.inr ⟨List.mem_cons_of_mem _ h.1, h.2⟩
    · rw [if_neg hc] at hx
      rcases ih acc x hx with h | h
      · exact Or.inl h
      · exact Or.inr ⟨List.mem_cons_of_mem _ h.1, h.2⟩

theorem mergeThreadMsgs_acc_mem (startDate endDate : JSDate)
    (tms : List Msg) :
    ∀ (acc : List Msg) (x : Msg), x ∈ acc →
      x ∈ mergeThreadMsgs startDate endDate acc tms := by
  induction tms with
  | nil => exact fun acc x hx => hx
  | cons t rest ih =>
    intro acc x hx
    unfold mergeThreadMsgs
    rw [List.foldl_cons]
    by_cases hc : (!acc.any (fun m => m.id == t.id)) &&
        dateInRange startDate endDate t.created_at
    · rw [if_pos hc]
      exact ih (acc ++ [t]) x (List.mem_append_left _ hx)
    · rw [if_neg hc]
      exact ih acc x hx

theorem mergeThreadMsgs_nodup (startDate endDate : JSDate)
    (tms : List Msg) :
    ∀ (acc : List Msg), (acc.map Msg.id).Nodup →
      ((mergeThreadMsgs startDate endDate acc tms).map Msg.id).Nodup := by
  induction tms with
  | nil => exact fun acc h => h
  | cons t rest ih =>
    intro acc hnd
    unfold mergeThreadMsgs
    rw [List.foldl_cons]
    by_cases hc : (!acc.any (fun m => m.id == t.id)) &&
        dateInRange startDate endDate t.created_at
    · rw [if_pos hc]
      refine ih (acc ++ [t]) ?_
      rw [List.map_append]
      refine nodup_append_singleton hnd ?_
      rw [Bool.and_eq_true] at hc
      have hna := hc.1
      rw [Bool.not_eq_true', List.any_eq_false] at hna
      intro hmem
      obtain ⟨m, hm, hmid⟩ := List.mem_map.1 hmem
      have h1 := hna m hm
      rw [hmid] at h1
      simp at h1
    · rw [if_neg hc]
      exact ih acc hnd

theorem expand_fold_mem (db : DBM) (filter : MessageFilter)
    (keys : List String) :
    ∀ (acc : List Msg) (x : Msg),
      x ∈ keys.foldl (fun acc threadId =>
        mergeThreadMsgs filter.startDate filter.endDate acc
          (getThreadMessages db threadId)) acc →
      x ∈ acc ∨ (x ∈ db.messages ∧
        dateInRange filter.startDate filter.endDate x.created_at = true) := by
  induction keys with
  | nil => exact fun acc x hx => Or.inl hx
  | cons k rest ih =>
    intro acc x hx
    rw [List.foldl_cons] at hx
    rcases ih _ x hx with h | h
    · rcases mergeThreadMsgs_mem _ _ _ _ x h with h' | h'
      · exact Or.inl h'
      · exact Or.inr ⟨getThreadMessages_mem db k x h'.1, h'.2⟩
    · exact Or.inr h

theorem expand_fold_acc_mem (db : DBM) (filter : MessageFilter)
    (keys : List String) :
    ∀ (acc : List Msg) (x : Msg), x ∈ acc →
      x ∈ keys.foldl (fun acc threadId =>
        mergeThreadMsgs filter.startDate filter.endDate acc
          (getThreadMessages db threadId)) acc := by
  induction keys with
  | nil => exact fun _ _ hx => hx
  | cons k rest ih =>
    intro acc x hx
    rw [List.foldl_cons]
    exact ih _ x (mergeThreadMsgs_acc_mem _ _ _ acc x hx)

theorem expand_fold_nodup (db : DBM) (filter : MessageFilter)
    (keys : List String) :
    ∀ acc : List Msg, (acc.map Msg.id).Nodup →
      ((keys.foldl (fun acc threadId =>
        mergeThreadMsgs filter.startDate filter.endDate acc
          (getThreadMessages db threadId)) acc).map Msg.id).Nodup := by
  induction keys with
  | nil => exact fun _ h => h
  | cons k rest ih =>
    intro acc hnd
    rw [List.foldl_cons]
    exact ih _ (mergeThreadMsgs_nodup _ _ _ acc hnd)

theorem eq_singleton_of_mem_nodup (l : List Msg) (r : Msg)
    (hnd : (l.map Msg.id).Nodup) (hall : ∀ x ∈ l, x = r) (hmem : r ∈ l) :
    l = [r] := by
  cases l with
  | nil => cases hmem
  | cons a rest =>
    have ha : a = r := hall a (List.mem_cons_self _ _)
    subst ha
    cases rest with
    | nil => rfl
    | cons b brest =>
      have hb : b = a :=
        hall b (List.mem_cons_of_mem _ (List.mem_cons_self _ _))
      rw [List.map_cons, List.nodup_cons] at hnd
      exact absurd
        (List.mem_map.2 ⟨b, List.mem_cons_self _ _, by rw [hb]⟩) hnd.1

/-- C4: with `includeThreads` true, `getFilteredMessagesGrouped` merges a
fetched thread member only if it is not already present (by id) and its
`created_at` lies within `[startDate, endDate]` — the expanded working set
contains only base messages and in-window store rows, ids stay pairwise
distinct — and consequently an in-window reply whose parent sits outside the
window yields one synthetic-parent (orphaned) thread instead of pulling the
real parent in from outside the window. -/
theorem C4_window_bounded_thread_expansion (db : DBM)
    (filter : MessageFilter) (base : List Msg) :
    (∀ m ∈ expandThreads db filter base,
      m ∈ base ∨ (m ∈ db.messages ∧
        dateInRange filter.startDate filter.endDate m.created_at = true)) ∧
    ((base.map Msg.id).Nodup →
      ((expandThreads db filter base).map Msg.id).Nodup) ∧
    (∀ p r s e,
      db.messages = [p, r] →
      filter = ⟨some s, some e, none, none, some true⟩ →
      p.thread_id = none → r.thread_id = some p.ts → p.ts ≠ "" →
      r.ts ≠ p.ts → p.id ≠ r.id →
      dateInRange (some s) (some e) r.created_at = true →
      dateInRange (some s) (some e) p.created_at = false →
      getFilteredMessagesGrouped db filter =
        .ok { threads := [{ parentMessage := { r with thread_id := none }
                            replies := []
                            threadId := p.ts
                            messageCount := 1 }]
              standaloneMessages := []
              totalMessageCount := 1 }) := by
  refine ⟨?_, ?_, ?_⟩
  · intro m hm
    exact expand_fold_mem db filter _ base m hm
  · intro hnd
    exact expand_fold_nodup db filter _ base hnd
  · intro p r s e hdb hf hpt hrt hpts hrts hids hrin hpin
    subst hf
    have hse : s ≤ e := by
      unfold dateInRange at hrin
      rw [Bool.and_eq_true, decide_eq_true_eq, decide_eq_true_eq] at hrin
      exact Nat.le_trans hrin.1 hrin.2
    have hval : validateDateRange (some s) (some e) = .ok () := by
      show (if e < s then _ else _) = _
      rw [if_neg (Nat.not_lt.2 hse)]
    have hbase : getMessagesInTimeRange db (some s) (some e) = .ok [r] := by
      unfold getMessagesInTimeRange
      rw [hval, hdb, List.filter_cons, List.filter_cons]
      rw [if_neg (by rw [hpin]; simp), if_pos (by rw [hrin])]
      rfl
    have hexp : expandThreads db
        ⟨some s, some e, none, none, some true⟩ [r] = [r] := by
      apply eq_singleton_of_mem_nodup
      · exact expand_fold_nodup db _ _ [r] (by simp)
      · intro x hx
        rcases expand_fold_mem db _ _ [r] x hx with h | h
        · simpa using h
        · rw [hdb] at h
          rcases List.mem_cons.1 h.1 with h' | h'
          · subst h'
            exact absurd h.2 (by rw [hpin]; simp)
          · simpa using h'
      · exact expand_fold_acc_mem db _ _ [r] r (List.mem_cons_self _ _)
    obtain ⟨f, rest, hfr, -, hthreads, hstand⟩ :=
      group_orphan_only [r] p.ts (by simp) hpts (by
        intro m hm
        rw [List.mem_singleton] at hm
        rw [hm, hrt])
    have hf1 : f = r ∧ rest = [] := by
      have hs1 : sortByCreatedAt [r] = [r] := rfl
      rw [hs1] at hfr
      injection hfr with h1 h2
      exact ⟨h1.symm, h2.symm⟩
    rw [hf1.1, hf1.2] at hthreads
    have hgroup : groupMessagesByThreads [r] =
        { threads := [{ parentMessage := { r with thread_id := none }
                        replies := []
                        threadId := p.ts
                        messageCount := 1 }]
          standaloneMessages := []
          totalMessageCount := 1 } := by
      have htotal : (groupMessagesByThreads [r]).totalMessageCount = 1 := by
        rw [grouped_total, hthreads, hstand]
        rfl
      calc groupMessagesByThreads [r] =
          ⟨(groupMessagesByThreads [r]).threads,
            (groupMessagesByThreads [r]).standaloneMessages,
            (groupMessagesByThreads [r]).totalMessageCount⟩ := rfl
        _ = _ := by
            rw [hthreads, hstand, htotal]
            rfl
    have hhe : hasEntries none = false := rfl
    have hit : includeThreadsB (some true) = true := rfl
    unfold getFilteredMessagesGrouped
    simp only [hval, hhe, Bool.false_eq_true, if_false, hbase, hit,
      if_true, hexp, hgroup]

/-- C4 witness at a concrete store and filter. -/
theorem C4_witness :
    getFilteredMessagesGrouped
        ⟨[mkM 1 "50" none 50, mkM 2 "120" (some "50") 120], [], []⟩
        ⟨some 100, some 200, none, none, some true⟩ =
      .ok { threads := [{ parentMessage :=
                            { mkM 2 "120" (some "50") 120 with
                                thread_id := none }
                          replies := []
                          threadId := (mkM 1 "50" none 50).ts
                          messageCount := 1 }]
            standaloneMessages := []
            totalMessageCount := 1 } :=
  (C4_window_bounded_thread_expansion
      ⟨[mkM 1 "50" none 50, mkM 2 "120" (some "50") 120], [], []⟩
      ⟨some 100, some 200, none, none, some true⟩ []).2.2
    (mkM 1 "50" none 50) (mkM 2 "120" (some "50") 120) 100 200
    rfl rfl rfl rfl (by decide) (by decide) (by decide) (by decide)
    (by decide)

end STDG
